import Mathlib

/-!
concatfs: the chunk-mapping engine of `src/concatfs.c`.

A shallow embedding of the registry of open virtual files
(`open_files_find`, `open_files_push_front`, `open_files_erase`), of the
index parser (`open_concat_file`, `get_concat_file_size`) and of the range
resolver (`read_concat_file`), followed by theorems about them.

Modelling conventions.

* The singly linked lists `struct chunk *` and `struct concat_file *` are
  Lean lists, in link order; the `next` fields are the list structure.
* `char` is `Char`; C strings, file contents and buffers are `List Char`.
* `off_t`, `ssize_t` and `int` are `Int`, `size_t` is `Nat`.  The parser
  stores the two numbers of a line in `off_t` variables and accumulates
  `fsize` with 64-bit wrap-around (`to_off_t`).  The arithmetic and the
  comparisons of the read loop are taken on mathematical integers: for the
  non-negative offsets and the request sizes that FUSE passes, and files
  smaller than 2^63 bytes, they are the C operations.
* `pread` is a parameter of the read loop, so that theorems can range over
  every behaviour of the underlying positioned reads; `OS.pread` is the
  instance given by a small model of files and descriptors.  A `pread` stores
  at most the length it was asked for, so `count -= bytes_read_now` is the
  subtraction on `Nat`.
* `abort()` and a null pointer handed to `open_files_push_front` end the
  process: the functions that can reach them return an `Option`, none being
  that outcome.
-/

namespace Concatfs

/-! ## Data model (`struct chunk`, `struct concat_file`) -/

/-- One chunk of a virtual file: `struct chunk` without its `next` link. -/
structure chunk where
  fd : Int
  start_offset : Int
  portion : Nat
  deriving DecidableEq, Repr

/-- One open virtual file: `struct concat_file` without its `next` link. -/
structure concat_file where
  chunks : List chunk
  fd : Int
  fsize : Int
  refcount : Int
  deriving DecidableEq, Repr

/-- Value of `EINVAL` in `<errno.h>` on Linux. -/
def EINVAL : Int := 22

/-- Value of `EBADF` in `<errno.h>` on Linux. -/
def EBADF : Int := 9

/-! ## The registry of open files -/

/-- Lines 55-71: the first entry of the list whose `fd` is the handle. -/
def open_files_find (fd : Int) : List concat_file → Option concat_file
  | [] => none
  | cf :: rest => if cf.fd = fd then some cf else open_files_find fd rest

/-- Lines 73-81: the new entry becomes the head of the list. -/
def open_files_push_front (cf : concat_file) (open_files : List concat_file) :
    List concat_file :=
  cf :: open_files

/-- Lines 94-103: the scan `for (p = open_files; p; p = p->next)` that stops at
the first `p` whose successor carries the handle and unlinks that successor.
The argument is the list starting at `p`; the result is the unlinked entry
(if any) and the list starting at `p` afterwards. -/
def erase_scan (fd : Int) : List concat_file → Option concat_file × List concat_file
  | [] => (none, [])
  | [p] => (none, [p])
  | p :: q :: rest =>
    if q.fd = fd then (some q, p :: rest)
    else
      let r := erase_scan fd (q :: rest)
      (r.1, p :: r.2)

/-- Lines 83-113: returns the unlinked entry (or none) and the registry after
the call. -/
def open_files_erase (fd : Int) :
    List concat_file → Option concat_file × List concat_file
  | [] => (none, [])
  | hd :: rest =>
    if hd.fd = fd then (some hd, rest) else erase_scan fd (hd :: rest)

/-! ## The range resolver -/

/-- Result of one `pread(fd, buf, n, pos)`: the value of `errno` when it
returns a negative value, the bytes stored in the buffer otherwise. -/
inductive PreadResult where
  | error (errno : Nat)
  | ok (bytes : List Char)
  deriving DecidableEq, Repr

/-- One positioned read issued by the resolver: the chunk it was issued for,
the requested length and the physical position. -/
structure PreadCall where
  c : chunk
  n : Nat
  pos : Int
  deriving DecidableEq, Repr

/-- Outcome of `read_concat_file`: the returned `int`, the bytes stored in the
caller's buffer (in order), and the positioned reads issued (in order). -/
structure ReadOutcome where
  ret : Int
  buf : List Char
  calls : List PreadCall
  deriving DecidableEq, Repr

/-- Lines 263-289: the loop over the chunk list, the local variables being the
arguments.  `buf` holds the bytes stored so far, `calls` the reads issued so
far. -/
def read_loop (pread : Int → Nat → Int → PreadResult) :
    List chunk → (count : Nat) → (offset virtual_offset bytes_read : Int) →
    (buf : List Char) → (calls : List PreadCall) → ReadOutcome
  | [], _, _, _, bytes_read, buf, calls => ⟨bytes_read, buf, calls⟩
  | c :: rest, count, offset, virtual_offset, bytes_read, buf, calls =>
    if count > 0 then
      if virtual_offset + (c.portion : Int) > offset then
        let read_from_pos : Int := c.start_offset + offset - virtual_offset
        let read_this_much : Nat := if count < c.portion then count else c.portion
        let calls1 := calls ++ [⟨c, read_this_much, read_from_pos⟩]
        match pread c.fd read_this_much read_from_pos with
        | .error errno => ⟨-(errno : Int), buf, calls1⟩
        | .ok bytes =>
          let bytes_read_now : Nat := bytes.length
          read_loop pread rest (count - bytes_read_now) (offset + bytes_read_now)
            (virtual_offset + c.portion) (bytes_read + bytes_read_now)
            (buf ++ bytes) calls1
      else
        read_loop pread rest count offset (virtual_offset + c.portion) bytes_read buf calls
    else ⟨bytes_read, buf, calls⟩

/-- Lines 244-290. -/
def read_concat_file (pread : Int → Nat → Int → PreadResult)
    (open_files : List concat_file) (fd : Int) (count : Nat) (offset : Int) :
    ReadOutcome :=
  match open_files_find fd open_files with
  | none => ⟨-EINVAL, [], []⟩
  | some cf =>
    if offset > cf.fsize then ⟨0, [], []⟩
    else read_loop pread cf.chunks count offset 0 0 [] []

/-! ## The index parser -/

/-- Value of `PATH_MAX` in `<limits.h>` on Linux. -/
def PATH_MAX : Nat := 4096

/-- Conversion of an integer to the 64-bit signed `off_t`, with wrap-around. -/
def to_off_t (x : Int) : Int := (x + 2 ^ 63) % 2 ^ 64 - 2 ^ 63

/-- Conversion of an `off_t` to the 64-bit unsigned `size_t`. -/
def to_size_t (x : Int) : Nat := (x % 2 ^ 64).toNat

/-- Body of `fgets`: at most `room` characters, stopping after a newline.
Returns the characters stored and the rest of the stream. -/
def fgets_aux : Nat → List Char → List Char × List Char
  | 0, s => ([], s)
  | _, [] => ([], [])
  | room + 1, c :: s =>
    if c = '\n' then ([c], s)
    else
      let r := fgets_aux room s
      (c :: r.1, r.2)

/-- Model of `fgets(buf, size, fp)`: none at end of file, else the characters
stored in the buffer (at most `size - 1`) and the rest of the stream. -/
def fgets (size : Nat) (stream : List Char) : Option (List Char × List Char) :=
  match stream with
  | [] => none
  | _ :: _ => some (fgets_aux (size - 1) stream)

/-- The C string held by a buffer: its characters up to the first NUL. -/
def c_string (buf : List Char) : List Char := buf.takeWhile (fun c => c ≠ '\x00')

/-- Model of `isspace` in the C locale. -/
def isspace (c : Char) : Bool :=
  c = ' ' || c = '\t' || c = '\n' || c = '\x0b' || c = '\x0c' || c = '\r'

/-- Model of `isdigit`. -/
def isdigit (c : Char) : Bool := 48 ≤ c.toNat && c.toNat ≤ 57

/-- Decimal value of a run of digits, most significant first, continuing from
the value `acc` of the digits already consumed. -/
def decimal_from (acc : Nat) : List Char → Nat
  | [] => acc
  | d :: ds => decimal_from (10 * acc + (d.toNat - 48)) ds

/-- Decimal value of a run of digits. -/
def decimal (ds : List Char) : Nat := decimal_from 0 ds

/-- Model of one `%llu` conversion of `sscanf`: white space is skipped, an
optional sign is accepted, and at least one digit is required.  The result is
the `unsigned long long` stored and the unread input; a number in range that
follows a minus sign is negated modulo 2^64, and an out-of-range number is
stored as `ULLONG_MAX` whatever its sign, as `strtoull` does. -/
def scan_llu (s : List Char) : Option (Nat × List Char) :=
  let s1 := s.dropWhile isspace
  let neg : Bool := s1.head? = some '-'
  let s2 := if s1.head? = some '-' ∨ s1.head? = some '+' then s1.tail else s1
  let ds := s2.takeWhile isdigit
  if ds = [] then none
  else
    let v := min (decimal ds) (2 ^ 64 - 1)
    some (if neg = true ∧ decimal ds < 2 ^ 64 then (2 ^ 64 - v) % 2 ^ 64 else v,
      s2.dropWhile isdigit)

/-- Model of `sscanf(linebuf, "%llu %llu", &a, &b) == 2`: the two values when
both conversions succeed, none otherwise.  The blank of the format skips white
space, which the second conversion does as well. -/
def sscanf_llu_llu (s : List Char) : Option (Nat × Nat) :=
  match scan_llu s with
  | none => none
  | some (a, r) =>
    match scan_llu r with
    | none => none
    | some (b, _) => some (a, b)

/-- Model of `p = strchr(s, ' '); if (p == NULL) abort(); p += 1`: the text
after the first blank of `s`, none when `s` has no blank. -/
def after_blank (s : List Char) : Option (List Char) :=
  match s.dropWhile (fun c => c ≠ ' ') with
  | [] => none
  | _ :: t => some t

/-- Lines 152-174 on the characters that `fgets` stored: the last character of
the string is overwritten with NUL, the two numbers are scanned into `off_t`
variables, and `fpath` is set after the second blank.  The result is
`(start_offset, portion, fpath)`, or none when `abort()` is reached.  (For an
empty string the store at index `strlen - 1` is out of bounds; the string
stays empty and the scan fails.) -/
def parse_line (stored : List Char) : Option (Int × Int × List Char) :=
  let linebuf := (c_string stored).dropLast
  match sscanf_llu_llu linebuf with
  | none => none
  | some (a, b) =>
    match after_blank linebuf with
    | none => none
    | some p1 =>
      match after_blank p1 with
      | none => none
      | some fpath => some (to_off_t a, to_off_t b, fpath)

/-- Model of `dirname` (POSIX): trailing slashes are ignored, the last
component is removed, and a path without a directory part gives ".". -/
def dirname (path : List Char) : List Char :=
  let r := path.reverse.dropWhile (fun c => c = '/')
  if r = [] then (if path = [] then ['.'] else ['/'])
  else
    let r1 := r.dropWhile (fun c => c ≠ '/')
    if r1 = [] then ['.']
    else
      let r2 := r1.dropWhile (fun c => c = '/')
      if r2 = [] then ['/'] else r2.reverse

/-- Lines 178-182: the path opened for a chunk.  `strncpy` and `snprintf` are
bounded by `sizeof(tpath) = PATH_MAX`. -/
def chunk_path (base_dir fpath : List Char) : List Char :=
  if fpath.head? = some '/' then fpath.take PATH_MAX
  else (base_dir ++ '/' :: fpath).take (PATH_MAX - 1)

/-! ## A model of the files and descriptors the program works on -/

/-- The environment: the regular files that exist (path and content) and the
table of open descriptors (descriptor and path it was opened on). -/
structure OS where
  files : List (List Char × List Char)
  fdtab : List (Int × List Char)
  deriving DecidableEq, Repr

/-- Consecutive slashes of a path name count as one. -/
def squeeze_slashes : List Char → List Char
  | [] => []
  | [c] => [c]
  | c :: d :: rest =>
    if c = '/' ∧ d = '/' then squeeze_slashes (d :: rest)
    else c :: squeeze_slashes (d :: rest)

/-- Content of the regular file a path names, if there is one. -/
def OS.content (os : OS) (path : List Char) : Option (List Char) :=
  (os.files.find? (fun f => squeeze_slashes f.1 = squeeze_slashes path)).map Prod.snd

/-- Path a descriptor was opened on, if it is open. -/
def OS.fd_path (os : OS) (fd : Int) : Option (List Char) :=
  (os.fdtab.find? (fun e => e.1 = fd)).map Prod.snd

/-- The lowest non-negative descriptor that is not open. -/
def OS.fresh_fd (os : OS) : Int :=
  match (List.range (os.fdtab.length + 1)).find? (fun n => os.fd_path (n : Int) = none) with
  | some n => (n : Int)
  | none => (os.fdtab.length : Int) + 1

/-- Model of `open(path, O_RDONLY)`: the lowest unused descriptor when the
file exists, `-1` otherwise. -/
def OS.open (os : OS) (path : List Char) : Int × OS :=
  match os.content path with
  | none => (-1, os)
  | some _ => (os.fresh_fd, { os with fdtab := (os.fresh_fd, path) :: os.fdtab })

/-- Model of `dup(fd)`. -/
def OS.dup (os : OS) (fd : Int) : Int × OS :=
  match os.fd_path fd with
  | none => (-1, os)
  | some path => (os.fresh_fd, { os with fdtab := (os.fresh_fd, path) :: os.fdtab })

/-- Model of `close(fd)`. -/
def OS.close (os : OS) (fd : Int) : OS :=
  { os with fdtab := os.fdtab.filter (fun e => e.1 ≠ fd) }

/-- Model of `pread(fd, buf, n, pos)` on a regular file: `EINVAL` (22) for a
negative position, `EBADF` (9) for a descriptor that is not open, else the
bytes available at `pos`, at most `n`. -/
def OS.pread (os : OS) (fd : Int) (n : Nat) (pos : Int) : PreadResult :=
  if pos < 0 then .error 22
  else
    match os.fd_path fd with
    | none => .error 9
    | some path =>
      match os.content path with
      | none => .error 9
      | some bytes => .ok ((bytes.drop pos.toNat).take n)

/-! ## Opening, sizing and closing a virtual file -/

/-- Lines 147-197: the loop `while (fgets(linebuf, sizeof(linebuf), fp))` on
the unread part of the description, with `rv->fsize` and the chunk list built
so far; `fd` is the handle passed to `open_concat_file` and `base_dir` the
directory of the description.  None means that `abort()` was reached.  Each
round consumes at least one character, so `fuel` rounds suffice for a stream
of `fuel` characters. -/
def open_loop (fd : Int) (base_dir : List Char) :
    (fuel : Nat) → (stream : List Char) → OS → (fsize : Int) → List chunk →
    Option (OS × Int × List chunk)
  | 0, _, os, fsize, chunks => some (os, fsize, chunks)
  | fuel + 1, stream, os, fsize, chunks =>
    match fgets (PATH_MAX + 1) stream with
    | none => some (os, fsize, chunks)
    | some (stored, rest) =>
      match parse_line stored with
      | none => none
      | some (start_offset, portion, fpath) =>
        if fd ≥ 0 then
          let o := os.open (chunk_path base_dir fpath)
          open_loop fd base_dir fuel rest o.2 (to_off_t (fsize + portion))
            (chunks ++ [⟨o.1, start_offset, to_size_t portion⟩])
        else
          open_loop fd base_dir fuel rest os (to_off_t (fsize + portion)) chunks

/-- Lines 126-134: the stream `fp`.  With `fd >= 0` it is `fdopen(dup(fd))`,
else `fopen(path)`; the result is the descriptor under the stream, the text
to be read and the environment, none when `fp` is NULL.  (The mode of the
stream is not modelled: every descriptor is readable.) -/
def open_stream (os : OS) (fd : Int) (path : List Char) :
    Option (Int × List Char × OS) :=
  if fd ≥ 0 then
    match os.fd_path fd with
    | none => none
    | some p =>
      match os.content p with
      | none => none
      | some text => some ((os.dup fd).1, text, (os.dup fd).2)
  else
    match os.content path with
    | none => none
    | some text => some ((os.open path).1, text, (os.open path).2)

/-- Lines 115-200.  The outer none means that `abort()` was reached; otherwise
the result is the environment after the call and the pointer returned, none
being the null pointer. -/
def open_concat_file (os : OS) (fd : Int) (path : List Char) :
    Option (OS × Option concat_file) :=
  match open_stream os fd path with
  | none => some (os, none)
  | some (sfd, text, os1) =>
    match open_loop fd (dirname (path.take PATH_MAX)) text.length text os1 0 [] with
    | none => none
    | some (os2, fsize, chunks) =>
      some (os2.close sfd, some ⟨chunks, fd, fsize, 1⟩)

/-- Lines 203-226: every chunk descriptor is closed, then the handle. -/
def close_concat_file (os : OS) : Option concat_file → OS
  | none => os
  | some cf => (cf.chunks.foldl (fun o c => o.close c.fd) os).close cf.fd

/-- Lines 228-242.  None means that `abort()` was reached. -/
def get_concat_file_size (os : OS) (path : List Char) : Option (OS × Int) :=
  match open_concat_file os (-1) path with
  | none => none
  | some (os1, none) => some (os1, 0)
  | some (os1, some c) => some (close_concat_file os1 (some c), c.fsize)

/-! ## The callbacks that use the engine -/

/-- The state the callbacks work on: the environment and the list
`open_files`. -/
structure State where
  os : OS
  open_files : List concat_file
  deriving DecidableEq, Repr

/-- Value of `ENOENT` in `<errno.h>` on Linux. -/
def ENOENT : Int := 2

/-- Lines 342-360, `src_dir` being a parameter.  The result is the state after
the call, the returned `int` and the handle stored in `fi->fh`; none means
that the process does not survive the call (`abort()`, or the null pointer
handed to `open_files_push_front`). -/
def concatfs_open (src_dir : List Char) (st : State) (path : List Char) :
    Option (State × Int × Option Int) :=
  let fpath := (src_dir ++ '/' :: path).take (PATH_MAX - 1)
  let o := st.os.open fpath
  if o.1 < 0 then some (st, -ENOENT, none)
  else
    match open_concat_file o.2 o.1 fpath with
    | none => none
    | some (_, none) => none
    | some (os1, some cf) =>
      some (⟨os1, open_files_push_front cf st.open_files⟩, 0, some o.1)

/-- Lines 362-367. -/
def concatfs_release (st : State) (fh : Int) : State × Int :=
  let e := open_files_erase fh st.open_files
  (⟨close_concat_file st.os e.1, e.2⟩, 0)

/-- Lines 369-373, the positioned reads being those of the environment. -/
def concatfs_read (st : State) (fh : Int) (size : Nat) (offset : Int) : ReadOutcome :=
  read_concat_file st.os.pread st.open_files fh size offset

/-- The descriptors that `close_concat_file` hands to `close`, in order: those
of the chunks, then the handle; none for the null pointer. -/
def close_calls : Option concat_file → List Int
  | none => []
  | some cf => cf.chunks.map (fun c => c.fd) ++ [cf.fd]

/-- The descriptors that are open in the environment. -/
def OS.open_fds (os : OS) : List Int := os.fdtab.map Prod.fst

/-! ## Specification-side notions -/

/-- Sum of the portions of a chunk list. -/
def total_portion (chunks : List chunk) : Int :=
  (chunks.map (fun c => (c.portion : Int))).sum

/-- The bytes a chunk contributes: `portion` bytes of its file, from
`start_offset` on; `file fd` is the content of the file behind `fd`. -/
def chunk_bytes (file : Int → List Char) (c : chunk) : List Char :=
  ((file c.fd).drop c.start_offset.toNat).take c.portion

/-- The logical concatenation of a chunk list. -/
def logical_content (file : Int → List Char) (chunks : List chunk) : List Char :=
  (chunks.map (chunk_bytes file)).flatten

/-- The bytes `[offset, min(offset + count, size))` of the logical
concatenation. -/
def logical_slice (file : Int → List Char) (chunks : List chunk)
    (count : Nat) (offset : Int) : List Char :=
  ((logical_content file chunks).drop offset.toNat).take count

/-- Content of the file behind a descriptor of the environment (empty when the
descriptor is not open). -/
def OS.file_of_fd (os : OS) (fd : Int) : List Char :=
  match os.fd_path fd with
  | none => []
  | some path => (os.content path).getD []

/-- Every registered virtual file has `fsize` equal to the sum of the portions
of its chunks. -/
def registry_consistent (open_files : List concat_file) : Prop :=
  ∀ cf ∈ open_files, cf.fsize = total_portion cf.chunks

instance (open_files : List concat_file) : Decidable (registry_consistent open_files) := by
  unfold registry_consistent
  infer_instance

/-! ## Index descriptions as the format writes them -/

/-- One line `<start_offset> <portion_length> <target_path>` of a description:
the two numbers as their decimal digits, and the target path. -/
structure IndexLine where
  start_offset : List Char
  portion_length : List Char
  target_path : List Char
  deriving DecidableEq, Repr

/-- The characters of a line, without line terminator: the three fields
separated by single blanks. -/
def IndexLine.text (l : IndexLine) : List Char :=
  l.start_offset ++ ' ' :: (l.portion_length ++ ' ' :: l.target_path)

/-- A line has the form of the format: both numbers are non-empty runs of
decimal digits, the target path is non-empty and holds neither a newline nor
a NUL, and the line with its terminator fits the buffer of `PATH_MAX + 1`
characters that `open_concat_file` reads it into. -/
def IndexLine.well_formed (l : IndexLine) : Prop :=
  l.start_offset ≠ [] ∧ (∀ c ∈ l.start_offset, isdigit c = true) ∧
  l.portion_length ≠ [] ∧ (∀ c ∈ l.portion_length, isdigit c = true) ∧
  l.target_path ≠ [] ∧ '\n' ∉ l.target_path ∧ '\x00' ∉ l.target_path ∧
  l.text.length < PATH_MAX

instance (l : IndexLine) : Decidable l.well_formed := by
  unfold IndexLine.well_formed
  infer_instance

/-- The text of a description: the lines in order, each followed by a newline;
with `final_newline = false` the last line has no newline after it. -/
def description_text : List IndexLine → (final_newline : Bool) → List Char
  | [], _ => []
  | [l], false => l.text
  | l :: ls, nl => l.text ++ '\n' :: description_text ls nl

/-- Sum of the `portion_length` fields of the lines. -/
def portion_sum (lines : List IndexLine) : Nat :=
  (lines.map (fun l => decimal l.portion_length)).sum

/-- The `off_t` that the scan of a run of digits stores. -/
def scanned (ds : List Char) : Int := to_off_t ((min (decimal ds) (2 ^ 64 - 1) : Nat) : Int)

/-- The path a chunk's target denotes: the target itself when it begins with
`/`, else the directory part of the description path, `/`, and the target. -/
def resolved_path (description_path target : List Char) : List Char :=
  if target.head? = some '/' then target
  else dirname description_path ++ '/' :: target

/-- The strings that successive calls `fgets(linebuf, sizeof(linebuf), fp)`
store while reading a stream to its end, `fuel` bounding the number of
calls. -/
def stored_lines : Nat → List Char → List (List Char)
  | 0, _ => []
  | fuel + 1, stream =>
    match fgets (PATH_MAX + 1) stream with
    | none => []
    | some (stored, rest) => stored :: stored_lines fuel rest

/-! ## Example environments -/

/-- The directory `/data` holding a description `idx.txt` and the two files
`a.bin` and `b.bin`, no descriptor being open. -/
def data_dir (description a b : String) : OS :=
  ⟨[("/data/idx.txt".toList, description.toList), ("/data/a.bin".toList, a.toList),
    ("/data/b.bin".toList, b.toList)], []⟩

/-- The description `/idx.txt` of `data_dir` is opened through `concatfs_open`
with `/data` as source directory, then `count` bytes are read at `offset`
through the handle the open returned.  The result is the returned value and
the bytes stored; none when the open does not return a handle. -/
def open_then_read (description a b : String) (count : Nat) (offset : Int) :
    Option (Int × List Char) :=
  match concatfs_open "/data".toList ⟨data_dir description a b, []⟩ "/idx.txt".toList with
  | some (st, _, some fh) =>
    some ((concatfs_read st fh count offset).ret, (concatfs_read st fh count offset).buf)
  | _ => none

/-- As `open_then_read`, the result being the positioned reads issued: the
chunk's start offset and portion, the length asked for and the position. -/
def open_then_read_calls (description a b : String) (count : Nat) (offset : Int) :
    Option (List (Int × Nat × Nat × Int)) :=
  match concatfs_open "/data".toList ⟨data_dir description a b, []⟩ "/idx.txt".toList with
  | some (st, _, some fh) =>
    some ((concatfs_read st fh count offset).calls.map
      (fun k => (k.c.start_offset, k.c.portion, k.n, k.pos)))
  | _ => none

/-- As `open_then_read`, the result being the slice of the logical
concatenation of the opened file's chunks that the request denotes. -/
def open_then_slice (description a b : String) (count : Nat) (offset : Int) :
    Option (List Char) :=
  match concatfs_open "/data".toList ⟨data_dir description a b, []⟩ "/idx.txt".toList with
  | some (st, _, some fh) =>
    (open_files_find fh st.open_files).map
      (fun cf => logical_slice st.os.file_of_fd cf.chunks count offset)
  | _ => none

/-- The two lines `0 5 a.bin` and `0 3 b.bin`. -/
def two_lines : List IndexLine :=
  [⟨"0".toList, "5".toList, "a.bin".toList⟩, ⟨"0".toList, "3".toList, "b.bin".toList⟩]

/-- The directory `/data` whose description holds `two_lines` without a final
newline, descriptor 3 being open on the description. -/
def data_dir_opened : OS :=
  ⟨(data_dir "0 5 a.bin\n0 3 b.bin" "HELLO" "!!!XX").files, [(3, "/data/idx.txt".toList)]⟩

/-- Two files behind the descriptors 3 and 4: `HELLOWORLD`, of which a chunk
uses the first five bytes, and `!!!`. -/
def two_files (fd : Int) : List Char :=
  if fd = 3 then "HELLOWORLD".toList else "!!!".toList

/-- Positioned reads on `two_files`: all the bytes available at the position,
at most the number asked for. -/
def two_files_pread (fd : Int) (n : Nat) (pos : Int) : PreadResult :=
  if pos < 0 then .error 22 else .ok (((two_files fd).drop pos.toNat).take n)

/-- The virtual file `HELLO!!!` over `two_files`, registered under handle 7. -/
def hello_file : concat_file := ⟨[⟨3, 0, 5⟩, ⟨4, 0, 3⟩], 7, 8, 1⟩

/-- A positioned read stays inside the declared extent of its chunk. -/
def inside_extent (k : PreadCall) : Prop :=
  k.c.start_offset ≤ k.pos ∧ k.pos + (k.n : Int) ≤ k.c.start_offset + (k.c.portion : Int)

instance (k : PreadCall) : Decidable (inside_extent k) := by
  unfold inside_extent
  infer_instance

/-- As `open_then_read`, the result saying of each positioned read issued
whether it stayed inside the extent of its chunk. -/
def open_then_read_extents (description a b : String) (count : Nat) (offset : Int) :
    Option (List Bool) :=
  match concatfs_open "/data".toList ⟨data_dir description a b, []⟩ "/idx.txt".toList with
  | some (st, _, some fh) =>
    some ((concatfs_read st fh count offset).calls.map (fun k => decide (inside_extent k)))
  | _ => none

/-- The directory `/data` with the given description, `a.bin = HELLO` and
`b.bin = !!!XX`, descriptor 3 being open on the description. -/
def data_dir_with (description : String) : OS :=
  ⟨(data_dir description "HELLO" "!!!XX").files, [(3, "/data/idx.txt".toList)]⟩

/-- A state in which descriptor 0 is open on `a.bin` and registered as an
(empty) virtual file, the description of `/data` being `0 5 a.bin`,
`0 3 b.bin`, each line ended by a newline. -/
def busy_state : State :=
  ⟨⟨(data_dir "0 5 a.bin\n0 3 b.bin\n" "HELLO" "!!!XX").files, [(0, "/data/a.bin".toList)]⟩,
    [⟨[], 0, 0, 1⟩]⟩

/-- The line `0 5 ttt...t` whose target is 4092 characters `t`: a line of
4096 characters. -/
def long_line : IndexLine := ⟨['0'], ['5'], List.replicate 4092 't'⟩

/-- The line `00 5 ttt...t1 2 ` whose target is 4091 characters `t` followed
by `1 2 `, a target of 4095 characters that holds blanks: a line of 4100
characters. -/
def long_line_with_blanks : IndexLine :=
  ⟨['0', '0'], ['5'], List.replicate 4091 't' ++ ['1', ' ', '2', ' ']⟩

/-- The directory `/data` with a description of the given text, descriptor 3
being open on the description. -/
def described_by (text : List Char) : OS :=
  ⟨[("/data/idx.txt".toList, text)], [(3, "/data/idx.txt".toList)]⟩

/-- The directory `/data` with `a.bin = HELLO` and `b.bin = !!!XX`, the
descriptors 3 and 4 being open on `a.bin` and `b.bin`. -/
def data_dir_chunks_open : OS :=
  ⟨(data_dir "" "HELLO" "!!!XX").files,
    [(3, "/data/a.bin".toList), (4, "/data/b.bin".toList)]⟩

/-! ## Lemmas on the registry -/

theorem erase_scan_eq (fd : Int) (p : concat_file) (l : List concat_file) :
    erase_scan fd (p :: l) =
      (open_files_find fd l, p :: l.eraseP (fun cf => decide (cf.fd = fd))) := by
  induction l generalizing p with
  | nil => simp [erase_scan, open_files_find]
  | cons q rest ih =>
    by_cases hq : q.fd = fd
    · simp [erase_scan, open_files_find, hq]
    · simp [erase_scan, open_files_find, hq, ih q]

theorem open_files_erase_eq (fd : Int) (l : List concat_file) :
    open_files_erase fd l =
      (open_files_find fd l, l.eraseP (fun cf => decide (cf.fd = fd))) := by
  cases l with
  | nil => simp [open_files_erase, open_files_find]
  | cons hd rest =>
    by_cases hh : hd.fd = fd
    · simp [open_files_erase, open_files_find, hh]
    · simp [open_files_erase, open_files_find, hh, erase_scan_eq]

theorem open_files_find_eq_none (fd : Int) (l : List concat_file)
    (h : ∀ e ∈ l, e.fd ≠ fd) : open_files_find fd l = none := by
  induction l with
  | nil => rfl
  | cons hd rest ih =>
    have h1 : hd.fd ≠ fd := h hd (List.mem_cons_self _ _)
    have h2 : ∀ e ∈ rest, e.fd ≠ fd := fun e he => h e (List.mem_cons_of_mem _ he)
    simp [open_files_find, h1, ih h2]

theorem open_files_find_of_mem (fd : Int) (l : List concat_file)
    (hd : (l.map (fun e => e.fd)).Nodup) (cf : concat_file) (hm : cf ∈ l)
    (hfd : cf.fd = fd) : open_files_find fd l = some cf := by
  induction l with
  | nil => cases hm
  | cons x rest ih =>
    rw [List.map_cons, List.nodup_cons] at hd
    rcases List.mem_cons.mp hm with rfl | hin
    · simp [open_files_find, hfd]
    · have hx : x.fd ≠ fd := by
        intro hx
        apply hd.1
        rw [hx, ← hfd]
        exact List.mem_map_of_mem (fun e => e.fd) hin
      simp [open_files_find, hx, ih hd.2 hin]

theorem eraseP_no_handle (fd : Int) (l : List concat_file)
    (hd : (l.map (fun e => e.fd)).Nodup) :
    ∀ e ∈ l.eraseP (fun cf => decide (cf.fd = fd)), e.fd ≠ fd := by
  induction l with
  | nil => intro e he; cases he
  | cons x rest ih =>
    rw [List.map_cons, List.nodup_cons] at hd
    by_cases hx : x.fd = fd
    · intro e he
      have he1 : e ∈ rest := by simpa [List.eraseP_cons, hx] using he
      intro hefd
      apply hd.1
      rw [hx, ← hefd]
      exact List.mem_map_of_mem (fun e => e.fd) he1
    · intro e he
      have he1 : e = x ∨ e ∈ rest.eraseP (fun cf => decide (cf.fd = fd)) := by
        simpa [List.eraseP_cons, hx] using he
      rcases he1 with rfl | he2
      · exact hx
      · exact ih hd.2 e he2

theorem eraseP_absent (fd : Int) (l : List concat_file) (h : ∀ e ∈ l, e.fd ≠ fd) :
    l.eraseP (fun cf => decide (cf.fd = fd)) = l := by
  induction l with
  | nil => rfl
  | cons x rest ih =>
    have h1 : x.fd ≠ fd := h x (List.mem_cons_self _ _)
    have h2 : ∀ e ∈ rest, e.fd ≠ fd := fun e he => h e (List.mem_cons_of_mem _ he)
    simp [List.eraseP_cons, h1, ih h2]

/-! ## The registry: lookup, insertion, removal -/

/-- C6: in a registry with pairwise distinct handles, the first
`open_files_erase h` returns the entry whose `fd` is `h` when there is one and
none when there is none; every further `open_files_erase h` returns none and
leaves the registry as it was; and `open_files_find h` returns none after the
first erase. -/
theorem erase_returns_entry_then_is_idempotent (open_files : List concat_file) (h : Int)
    (hdistinct : (open_files.map (fun e => e.fd)).Nodup) :
    (∀ cf ∈ open_files, cf.fd = h → (open_files_erase h open_files).1 = some cf) ∧
    ((∀ cf ∈ open_files, cf.fd ≠ h) → (open_files_erase h open_files).1 = none) ∧
    open_files_erase h (open_files_erase h open_files).2
      = (none, (open_files_erase h open_files).2) ∧
    (∀ n : Nat, (fun r => (open_files_erase h r).2)^[n] (open_files_erase h open_files).2
      = (open_files_erase h open_files).2) ∧
    open_files_find h (open_files_erase h open_files).2 = none := by
  have hno := eraseP_no_handle h open_files hdistinct
  have hsecond : open_files_erase h (open_files_erase h open_files).2
      = (none, (open_files_erase h open_files).2) := by
    rw [open_files_erase_eq h open_files]
    simp only []
    rw [open_files_erase_eq, open_files_find_eq_none h _ hno, eraseP_absent h _ hno]
  refine ⟨?_, ?_, hsecond, ?_, ?_⟩
  · intro cf hm hfd
    rw [open_files_erase_eq]
    exact open_files_find_of_mem h open_files hdistinct cf hm hfd
  · intro hnone
    rw [open_files_erase_eq]
    exact open_files_find_eq_none h open_files hnone
  · intro n
    induction n with
    | zero => rfl
    | succ k ih =>
      rw [Function.iterate_succ_apply, hsecond]
      exact ih
  · rw [open_files_erase_eq]
    exact open_files_find_eq_none h _ hno

/-- Witness for C6 on a registry of three entries, the middle one erased. -/
theorem erase_returns_entry_then_is_idempotent_witness :
    (([⟨[], 5, 0, 1⟩, ⟨[⟨8, 0, 4⟩], 6, 4, 1⟩, ⟨[], 7, 0, 1⟩] : List concat_file).map
        (fun e => e.fd)).Nodup ∧
    (open_files_erase 6 [⟨[], 5, 0, 1⟩, ⟨[⟨8, 0, 4⟩], 6, 4, 1⟩, ⟨[], 7, 0, 1⟩]).1
      = some ⟨[⟨8, 0, 4⟩], 6, 4, 1⟩ ∧
    open_files_find 6
      (open_files_erase 6 [⟨[], 5, 0, 1⟩, ⟨[⟨8, 0, 4⟩], 6, 4, 1⟩, ⟨[], 7, 0, 1⟩]).2 = none :=
  ⟨by decide,
   (erase_returns_entry_then_is_idempotent
      [⟨[], 5, 0, 1⟩, ⟨[⟨8, 0, 4⟩], 6, 4, 1⟩, ⟨[], 7, 0, 1⟩] 6 (by decide)).1
      ⟨[⟨8, 0, 4⟩], 6, 4, 1⟩ (by decide) rfl,
   (erase_returns_entry_then_is_idempotent
      [⟨[], 5, 0, 1⟩, ⟨[⟨8, 0, 4⟩], 6, 4, 1⟩, ⟨[], 7, 0, 1⟩] 6 (by decide)).2.2.2.2⟩

/-- C7: when the handle of `cf` is not yet registered, after
`open_files_push_front cf` the lookup of that handle returns `cf` and the lookup
of every other handle returns what it returned before; and in every registry
the lookup of a handle that no entry carries returns none. -/
theorem find_after_push_front (open_files : List concat_file) (cf : concat_file)
    (hfresh : ∀ e ∈ open_files, e.fd ≠ cf.fd) :
    open_files_find cf.fd (open_files_push_front cf open_files) = some cf ∧
    (∀ h : Int, h ≠ cf.fd →
      open_files_find h (open_files_push_front cf open_files)
        = open_files_find h open_files) ∧
    (∀ (l : List concat_file) (h : Int), (∀ e ∈ l, e.fd ≠ h) → open_files_find h l = none) ∧
    open_files_find cf.fd open_files = none := by
  refine ⟨?_, ?_, ?_, ?_⟩
  · simp [open_files_push_front, open_files_find]
  · intro h hne
    have hne1 : cf.fd ≠ h := fun e => hne e.symm
    simp [open_files_push_front, open_files_find, hne1]
  · intro l h hl
    exact open_files_find_eq_none h l hl
  · exact open_files_find_eq_none cf.fd open_files hfresh

/-- Witness for C7: a second file is registered in front of a first one. -/
theorem find_after_push_front_witness :
    open_files_find 4 (open_files_push_front ⟨[⟨9, 0, 2⟩], 4, 2, 1⟩ [⟨[], 3, 0, 1⟩])
      = some ⟨[⟨9, 0, 2⟩], 4, 2, 1⟩ ∧
    open_files_find 3 (open_files_push_front ⟨[⟨9, 0, 2⟩], 4, 2, 1⟩ [⟨[], 3, 0, 1⟩])
      = open_files_find 3 [⟨[], 3, 0, 1⟩] :=
  ⟨(find_after_push_front [⟨[], 3, 0, 1⟩] ⟨[⟨9, 0, 2⟩], 4, 2, 1⟩ (by decide)).1,
   (find_after_push_front [⟨[], 3, 0, 1⟩] ⟨[⟨9, 0, 2⟩], 4, 2, 1⟩ (by decide)).2.1 3
      (by decide)⟩

/-! ## The range resolver: end of file and failures -/

theorem total_portion_nonneg (chunks : List chunk) : 0 ≤ total_portion chunks := by
  induction chunks with
  | nil => simp [total_portion]
  | cons c rest ih =>
    simp only [total_portion, List.map_cons, List.sum_cons] at ih ⊢
    have : (0 : Int) ≤ (c.portion : Int) := Int.ofNat_nonneg _
    omega

theorem total_portion_cons (c : chunk) (rest : List chunk) :
    total_portion (c :: rest) = (c.portion : Int) + total_portion rest := by
  simp [total_portion]

/-- When every remaining chunk ends at or before `offset`, the loop issues no
read and leaves the locals as they are. -/
theorem read_loop_past_end (pread : Int → Nat → Int → PreadResult) (chunks : List chunk)
    (count : Nat) (offset virtual_offset bytes_read : Int) (buf : List Char)
    (calls : List PreadCall) (h : virtual_offset + total_portion chunks ≤ offset) :
    read_loop pread chunks count offset virtual_offset bytes_read buf calls
      = ⟨bytes_read, buf, calls⟩ := by
  induction chunks generalizing virtual_offset with
  | nil => simp [read_loop]
  | cons c rest ih =>
    rw [total_portion_cons] at h
    have hrest := total_portion_nonneg rest
    have hc : ¬ (virtual_offset + (c.portion : Int) > offset) := by omega
    unfold read_loop
    by_cases hcount : count > 0
    · simp only [hcount, hc, if_true, if_false]
      exact ih (virtual_offset + c.portion) (by omega)
    · simp only [hcount, if_false]

/-- C2: for a registered virtual file whose `fsize` is the sum of its chunks'
portions, a read at any offset at or beyond `fsize` returns 0, stores nothing
and issues no positioned read, whatever `pread` would do. -/
theorem read_at_or_past_end_returns_zero (pread : Int → Nat → Int → PreadResult)
    (open_files : List concat_file) (fd : Int) (cf : concat_file)
    (hreg : open_files_find fd open_files = some cf)
    (hsize : cf.fsize = total_portion cf.chunks)
    (count : Nat) (offset : Int) (hoff : offset ≥ cf.fsize) :
    read_concat_file pread open_files fd count offset = ⟨0, [], []⟩ := by
  unfold read_concat_file
  rw [hreg]
  simp only []
  by_cases hgt : offset > cf.fsize
  · simp only [hgt, if_true]
  · simp only [hgt, if_false]
    exact read_loop_past_end pread cf.chunks count offset 0 0 [] [] (by omega)

/-- Witness for C2: a file of size 8 read at offset 8, every `pread`
failing. -/
theorem read_at_or_past_end_returns_zero_witness :
    read_concat_file (fun _ _ _ => PreadResult.error 5)
      [⟨[⟨3, 0, 5⟩, ⟨4, 0, 3⟩], 7, 8, 1⟩] 7 4 8 = ⟨0, [], []⟩ :=
  read_at_or_past_end_returns_zero (fun _ _ _ => PreadResult.error 5)
    [⟨[⟨3, 0, 5⟩, ⟨4, 0, 3⟩], 7, 8, 1⟩] 7 ⟨[⟨3, 0, 5⟩, ⟨4, 0, 3⟩], 7, 8, 1⟩
    (by decide) (by decide) 4 8 (by decide)

/-- A read in the list of issued reads that failed decides the result: the
loop returned the negated `errno` of that read. -/
theorem read_loop_failed_call (pread : Int → Nat → Int → PreadResult) (chunks : List chunk)
    (count : Nat) (offset virtual_offset bytes_read : Int) (buf : List Char)
    (calls : List PreadCall)
    (hcalls : ∀ k ∈ calls, ∃ bytes, pread k.c.fd k.n k.pos = .ok bytes)
    (k : PreadCall) (e : Nat)
    (hk : k ∈ (read_loop pread chunks count offset virtual_offset bytes_read buf calls).calls)
    (he : pread k.c.fd k.n k.pos = .error e) :
    (read_loop pread chunks count offset virtual_offset bytes_read buf calls).ret
      = -(e : Int) := by
  induction chunks generalizing count offset virtual_offset bytes_read buf calls with
  | nil =>
    simp only [read_loop] at hk
    obtain ⟨b, hb⟩ := hcalls k hk
    rw [hb] at he
    cases he
  | cons c rest ih =>
    unfold read_loop at hk ⊢
    by_cases hcount : count > 0
    · simp only [hcount, if_true] at hk ⊢
      by_cases hc : virtual_offset + (c.portion : Int) > offset
      · simp only [hc, if_true] at hk ⊢
        cases hp : pread c.fd (if count < c.portion then count else c.portion)
            (c.start_offset + offset - virtual_offset) with
        | error errno =>
          simp only [hp] at hk ⊢
          rcases List.mem_append.mp hk with hold | hnew
          · obtain ⟨b, hb⟩ := hcalls k hold
            rw [hb] at he
            cases he
          · rw [List.mem_singleton] at hnew
            subst hnew
            simp only [] at he
            rw [hp] at he
            cases he
            rfl
        | ok bytes =>
          simp only [hp] at hk ⊢
          refine ih _ _ _ _ _ _ ?_ hk
          intro k2 hk2
          rcases List.mem_append.mp hk2 with hold | hnew
          · exact hcalls k2 hold
          · rw [List.mem_singleton] at hnew
            subst hnew
            exact ⟨bytes, hp⟩
      · simp only [hc, if_false] at hk ⊢
        exact ih _ _ _ _ _ _ hcalls hk
    · simp only [hcount, if_false] at hk ⊢
      obtain ⟨b, hb⟩ := hcalls k hk
      rw [hb] at he
      cases he

/-- When none of the issued reads failed, the loop returns a value that is at
least the `bytes_read` it started from. -/
theorem read_loop_no_failure (pread : Int → Nat → Int → PreadResult) (chunks : List chunk)
    (count : Nat) (offset virtual_offset bytes_read : Int) (buf : List Char)
    (calls : List PreadCall)
    (hall : ∀ k ∈ (read_loop pread chunks count offset virtual_offset bytes_read buf
      calls).calls, ∃ bytes, pread k.c.fd k.n k.pos = .ok bytes) :
    bytes_read ≤
      (read_loop pread chunks count offset virtual_offset bytes_read buf calls).ret := by
  induction chunks generalizing count offset virtual_offset bytes_read buf calls with
  | nil => simp [read_loop]
  | cons c rest ih =>
    unfold read_loop at hall ⊢
    by_cases hcount : count > 0
    · simp only [hcount, if_true] at hall ⊢
      by_cases hc : virtual_offset + (c.portion : Int) > offset
      · simp only [hc, if_true] at hall ⊢
        cases hp : pread c.fd (if count < c.portion then count else c.portion)
            (c.start_offset + offset - virtual_offset) with
        | error errno =>
          simp only [hp] at hall
          obtain ⟨b, hb⟩ := hall ⟨c, if count < c.portion then count else c.portion,
            c.start_offset + offset - virtual_offset⟩ (by simp)
          simp only [] at hb
          rw [hp] at hb
          cases hb
        | ok bytes =>
          simp only [hp] at hall ⊢
          have := ih _ _ _ _ _ _ hall
          have hlen : (0 : Int) ≤ (bytes.length : Int) := Int.ofNat_nonneg _
          omega
      · simp only [hc, if_false] at hall ⊢
        exact ih _ _ _ _ _ _ hall
    · simp only [hcount, if_false]
      exact le_refl _

/-- C9: for a registered virtual file and any offset and count, a positioned
read issued by `read_concat_file` that fails makes the call return the negated
error code of that read, a negative value, whatever earlier chunks had
contributed; and when no issued read fails the result is non-negative.  The
error codes are positive, as `errno` is after a failed `pread`. -/
theorem failed_pread_gives_negated_errno (pread : Int → Nat → Int → PreadResult)
    (herrno : ∀ fd n pos e, pread fd n pos = .error e → 0 < e)
    (open_files : List concat_file) (fd : Int) (cf : concat_file)
    (hreg : open_files_find fd open_files = some cf) (count : Nat) (offset : Int) :
    (∀ k ∈ (read_concat_file pread open_files fd count offset).calls, ∀ e,
        pread k.c.fd k.n k.pos = .error e →
        (read_concat_file pread open_files fd count offset).ret = -(e : Int) ∧
        (read_concat_file pread open_files fd count offset).ret < 0) ∧
    ((∀ k ∈ (read_concat_file pread open_files fd count offset).calls,
        ∃ bytes, pread k.c.fd k.n k.pos = .ok bytes) →
      0 ≤ (read_concat_file pread open_files fd count offset).ret) := by
  unfold read_concat_file
  rw [hreg]
  simp only []
  by_cases hgt : offset > cf.fsize
  · simp only [hgt, if_true]
    refine ⟨?_, fun _ => le_refl _⟩
    intro k hk
    cases hk
  · simp only [hgt, if_false]
    refine ⟨?_, ?_⟩
    · intro k hk e he
      have hret := read_loop_failed_call pread cf.chunks count offset 0 0 [] []
        (by intro k2 hk2; cases hk2) k e hk he
      have hpos : 0 < e := herrno _ _ _ _ he
      refine ⟨hret, ?_⟩
      rw [hret]
      omega
    · intro hall
      exact read_loop_no_failure pread cf.chunks count offset 0 0 [] [] hall

/-- Witness for C9: the first chunk delivers two bytes, the read on the second
chunk fails with error code 5, and the call returns -5. -/
theorem failed_pread_gives_negated_errno_witness :
    (read_concat_file
      (fun fd _ _ => if fd = 3 then PreadResult.ok ['a', 'b'] else PreadResult.error 5)
      [⟨[⟨3, 0, 2⟩, ⟨4, 0, 3⟩], 7, 5, 1⟩] 7 4 0).ret = -5 :=
  ((failed_pread_gives_negated_errno
      (fun fd _ _ => if fd = 3 then PreadResult.ok ['a', 'b'] else PreadResult.error 5)
      (by
        intro fd n pos e h
        by_cases h3 : fd = 3
        · simp [h3] at h
        · simp only [h3, if_false] at h
          cases h
          decide)
      [⟨[⟨3, 0, 2⟩, ⟨4, 0, 3⟩], 7, 5, 1⟩] 7 ⟨[⟨3, 0, 2⟩, ⟨4, 0, 3⟩], 7, 5, 1⟩
      (by decide) 4 0).1 ⟨⟨4, 0, 3⟩, 2, 0⟩ (by decide) 5 (by decide)).1

/-! ## The range resolver on concrete files -/

/-- C1, the code at a failing input: the description is `0 5 a.bin`, `0 3 b.bin`,
`a.bin` holds `HELLOWORLD` (its first five bytes form the chunk) and `b.bin`
holds `!!!`.  The logical file is `HELLO!!!`; a read of 4 bytes at offset 3
denotes `LO!!`, but `read_concat_file` asks `a.bin` for `min(count, portion)`
bytes from the middle of the chunk and returns `LOWO`. -/
theorem read_from_mid_chunk_overruns_chunk_end :
    open_then_slice "0 5 a.bin\n0 3 b.bin\n" "HELLOWORLD" "!!!" 4 3 = some "LO!!".toList ∧
    open_then_read "0 5 a.bin\n0 3 b.bin\n" "HELLOWORLD" "!!!" 4 3
      = some (4, "LOWO".toList) ∧
    open_then_read_calls "0 5 a.bin\n0 3 b.bin\n" "HELLOWORLD" "!!!" 4 3
      = some [(0, 5, 4, 3)] := by
  decide

/-- C4, the code at a failing input: `a.bin` holds only `abc` although its
chunk declares 5 bytes, so the read on it is short and the cursor falls behind
the running virtual offset.  Without a zero-length chunk the call returns 3;
with the line `0 0 b.bin` added, the zero-length chunk is selected for a read
at position -2, which fails, and the call returns `-EINVAL`. -/
theorem zero_chunk_after_short_read_changes_result :
    open_then_read "0 5 a.bin\n" "abc" "uvwxyz" 5 0 = some (3, "abc".toList) ∧
    open_then_read "0 5 a.bin\n0 0 b.bin\n" "abc" "uvwxyz" 5 0 = some (-22, "abc".toList) ∧
    open_then_read_calls "0 5 a.bin\n0 0 b.bin\n" "abc" "uvwxyz" 5 0
      = some [(0, 5, 5, 0), (0, 0, 0, -2)] := by
  decide

/-- C5, counterexample: with the description `0 5 a.bin`, `5 3 b.bin` of the
claim (no newline after the second line), `a.bin = HELLO` and `b.bin = !!!XX`,
the read of 4 bytes at offset 3 does not return 4 bytes `LO!!`: it stores `LO`
and returns `-EBADF`, the second target having lost its last character.  With
a newline after the second line it returns the 2 bytes `LO`, the chunk of
`b.bin` starting at byte 5 of a file of 5 bytes. -/
theorem spec_example_read_is_not_LO_bang_bang :
    open_then_read "0 5 a.bin\n5 3 b.bin" "HELLO" "!!!XX" 4 3 ≠ some (4, "LO!!".toList) ∧
    open_then_read "0 5 a.bin\n5 3 b.bin" "HELLO" "!!!XX" 4 3 = some (-9, "LO".toList) ∧
    open_then_read "0 5 a.bin\n5 3 b.bin\n" "HELLO" "!!!XX" 4 3 = some (2, "LO".toList) := by
  decide

/-- C5, amended: with the description `0 5 a.bin`, `0 3 b.bin`, each line ended
by a newline, `a.bin = HELLO` and `b.bin = !!!XX`, the logical file is
`HELLO!!!` of size 8, and the read of 4 bytes at offset 3 returns 4 and stores
`LO!!`. -/
theorem spec_example_with_physical_offsets :
    open_then_read "0 5 a.bin\n0 3 b.bin\n" "HELLO" "!!!XX" 4 3 = some (4, "LO!!".toList) ∧
    open_then_slice "0 5 a.bin\n0 3 b.bin\n" "HELLO" "!!!XX" 8 0
      = some "HELLO!!!".toList ∧
    get_concat_file_size (data_dir "0 5 a.bin\n0 3 b.bin\n" "HELLO" "!!!XX")
      "/data/idx.txt".toList
      = some (data_dir "0 5 a.bin\n0 3 b.bin\n" "HELLO" "!!!XX", 8) := by
  decide

/-- C8, the code at a failing input: `a.bin` holds `abc` although its chunk
declares 5 bytes, so the read of 5 bytes on it returns 3.  The call does not
stop there: it goes on to the chunk of `b.bin` (start offset 2), reads 4 bytes
at position 2 + 3 - 5 = 0, outside the chunk, and returns 7 bytes that are
no prefix of the bytes the chunks denote. -/
theorem short_read_does_not_stop_the_loop :
    open_then_read_calls "0 5 a.bin\n2 4 b.bin\n" "abc" "uvwxyz" 9 0
      = some [(0, 5, 5, 0), (2, 4, 4, 0)] ∧
    open_then_read "0 5 a.bin\n2 4 b.bin\n" "abc" "uvwxyz" 9 0
      = some (7, "abcuvwx".toList) ∧
    open_then_slice "0 5 a.bin\n2 4 b.bin\n" "abc" "uvwxyz" 9 0
      = some "abcwxyz".toList := by
  decide

/-- C10, the code at a failing input: for the line `0 5 a.bin` without a
newline, `fgets` stores the whole line and `parse_line` overwrites its last
character, so the target path extracted is `a.bi`; with the newline it is
`a.bin`. -/
theorem last_line_without_newline_loses_a_character :
    (fgets (PATH_MAX + 1) "0 5 a.bin".toList).map (fun r => parse_line r.1)
      = some (some (0, 5, "a.bi".toList)) ∧
    (fgets (PATH_MAX + 1) "0 5 a.bin\n".toList).map (fun r => parse_line r.1)
      = some (some (0, 5, "a.bin".toList)) := by
  decide

/-! ## The index parser on well-formed descriptions -/

theorem to_off_t_of_range (x : Int) (h0 : 0 ≤ x) (h1 : x < 2 ^ 63) : to_off_t x = x := by
  unfold to_off_t
  norm_num at h1 ⊢
  omega

theorem to_size_t_of_range (x : Int) (h0 : 0 ≤ x) (h1 : x < 2 ^ 63) :
    ((to_size_t x : Nat) : Int) = x := by
  unfold to_size_t
  norm_num at h1 ⊢
  omega

theorem isdigit_ne (c x : Char) (hc : isdigit c = true) (hx : isdigit x = false) : c ≠ x := by
  intro e
  rw [e, hx] at hc
  cases hc

theorem isdigit_not_space (c : Char) (hc : isdigit c = true) : isspace c = false := by
  have h1 := isdigit_ne c ' ' hc (by decide)
  have h2 := isdigit_ne c '\t' hc (by decide)
  have h3 := isdigit_ne c '\n' hc (by decide)
  have h4 := isdigit_ne c '\x0b' hc (by decide)
  have h5 := isdigit_ne c '\x0c' hc (by decide)
  have h6 := isdigit_ne c '\r' hc (by decide)
  simp [isspace, h1, h2, h3, h4, h5, h6]

theorem fgets_aux_line (t rest : List Char) (room : Nat) (hnl : '\n' ∉ t)
    (hlen : t.length < room) :
    fgets_aux room (t ++ '\n' :: rest) = (t ++ ['\n'], rest) := by
  induction t generalizing room with
  | nil =>
    cases room with
    | zero => cases hlen
    | succ r => simp [fgets_aux]
  | cons c t ih =>
    cases room with
    | zero => cases hlen
    | succ r =>
      have hc : c ≠ '\n' := fun e => hnl (by simp [e])
      have ht : '\n' ∉ t := fun h => hnl (List.mem_cons_of_mem _ h)
      have hl : t.length < r := by simpa using hlen
      simp [fgets_aux, hc, ih r ht hl]

theorem fgets_aux_last (t : List Char) (room : Nat) (hnl : '\n' ∉ t)
    (hlen : t.length ≤ room) : fgets_aux room t = (t, []) := by
  induction t generalizing room with
  | nil => cases room <;> simp [fgets_aux]
  | cons c t ih =>
    cases room with
    | zero => simp at hlen
    | succ r =>
      have hc : c ≠ '\n' := fun e => hnl (by simp [e])
      have ht : '\n' ∉ t := fun h => hnl (List.mem_cons_of_mem _ h)
      have hl : t.length ≤ r := by simpa using hlen
      simp [fgets_aux, hc, ih r ht hl]

theorem c_string_of_no_nul (t : List Char) (h : '\x00' ∉ t) : c_string t = t := by
  unfold c_string
  induction t with
  | nil => rfl
  | cons c t ih =>
    have hc : c ≠ '\x00' := fun e => h (by simp [e])
    have ht : '\x00' ∉ t := fun hm => h (List.mem_cons_of_mem _ hm)
    rw [List.takeWhile_cons]
    simp only [ne_eq, hc, not_false_eq_true, decide_True, if_true]
    rw [ih ht]

theorem takeWhile_digits (ds r : List Char) (hd : ∀ c ∈ ds, isdigit c = true)
    (hr : r.head?.map isdigit ≠ some true) :
    (ds ++ r).takeWhile isdigit = ds ∧ (ds ++ r).dropWhile isdigit = r := by
  induction ds with
  | nil =>
    cases r with
    | nil => simp
    | cons x r =>
      have hx : isdigit x = false := by
        cases hxd : isdigit x with
        | false => rfl
        | true => simp [hxd] at hr
      simp [List.takeWhile_cons, List.dropWhile_cons, hx]
  | cons c ds ih =>
    have hc : isdigit c = true := hd c (List.mem_cons_self _ _)
    have hds : ∀ c ∈ ds, isdigit c = true := fun x hx => hd x (List.mem_cons_of_mem _ hx)
    have := ih hds
    simp [List.takeWhile_cons, List.dropWhile_cons, hc, this.1, this.2]

theorem scan_llu_digits (ds r : List Char) (hne : ds ≠ [])
    (hd : ∀ c ∈ ds, isdigit c = true) (hr : r.head?.map isdigit ≠ some true) :
    scan_llu (ds ++ r) = some (min (decimal ds) (2 ^ 64 - 1), r) := by
  cases ds with
  | nil => exact absurd rfl hne
  | cons d ds1 =>
    have hdd : isdigit d = true := hd d (List.mem_cons_self _ _)
    have hsp : isspace d = false := isdigit_not_space d hdd
    have hminus : d ≠ '-' := isdigit_ne d '-' hdd (by decide)
    have hplus : d ≠ '+' := isdigit_ne d '+' hdd (by decide)
    have htd := takeWhile_digits (d :: ds1) r hd hr
    have hdrop : (d :: ds1 ++ r).dropWhile isspace = d :: ds1 ++ r := by
      simp [List.dropWhile_cons, hsp]
    unfold scan_llu
    simp only [hdrop]
    have hhead : (d :: ds1 ++ r).head? = some d := rfl
    simp only [hhead, Option.some.injEq, hminus, hplus, or_self, if_false, htd.1, htd.2]
    simp

theorem scan_llu_blank (s : List Char) : scan_llu (' ' :: s) = scan_llu s := by
  have hsp : isspace ' ' = true := by decide
  unfold scan_llu
  simp [List.dropWhile_cons, hsp]

theorem after_blank_digits (ds r : List Char) (hd : ∀ c ∈ ds, isdigit c = true) :
    after_blank (ds ++ ' ' :: r) = some r := by
  induction ds with
  | nil => simp [after_blank, List.dropWhile_cons]
  | cons d ds1 ih =>
    have hdd : isdigit d = true := hd d (List.mem_cons_self _ _)
    have hb : d ≠ ' ' := isdigit_ne d ' ' hdd (by decide)
    have hds : ∀ c ∈ ds1, isdigit c = true := fun x hx => hd x (List.mem_cons_of_mem _ hx)
    have := ih hds
    unfold after_blank at this ⊢
    simpa [List.dropWhile_cons, hb] using this

/-- The line `<digits> <digits> <rest>`, whatever `rest` is, scans as two
numbers, and `fpath` is `rest`. -/
theorem parse_fields (s p rest : List Char) (hs : s ≠ []) (hsd : ∀ c ∈ s, isdigit c = true)
    (hp : p ≠ []) (hpd : ∀ c ∈ p, isdigit c = true) :
    sscanf_llu_llu (s ++ ' ' :: (p ++ ' ' :: rest))
      = some (min (decimal s) (2 ^ 64 - 1), min (decimal p) (2 ^ 64 - 1)) ∧
    (after_blank (s ++ ' ' :: (p ++ ' ' :: rest))).bind after_blank = some rest := by
  have hb : isdigit ' ' = false := by decide
  have hblank : (' ' :: (p ++ ' ' :: rest)).head?.map isdigit ≠ some true := by
    simp [hb]
  have hblank2 : (' ' :: rest).head?.map isdigit ≠ some true := by
    simp [hb]
  constructor
  · unfold sscanf_llu_llu
    rw [scan_llu_digits s _ hs hsd hblank]
    simp only []
    rw [scan_llu_blank, scan_llu_digits p _ hp hpd hblank2]
  · rw [after_blank_digits s _ hsd]
    simp only [Option.some_bind]
    exact after_blank_digits p _ hpd

/-- A stored line made of two runs of digits, a blank after each, any text
`rest` without NUL and one more character `x` parses to the two numbers and
to `rest`: the character `x`, the newline of a terminated line, is dropped. -/
theorem parse_line_fields (s p rest : List Char) (x : Char)
    (hs : s ≠ []) (hsd : ∀ c ∈ s, isdigit c = true)
    (hp : p ≠ []) (hpd : ∀ c ∈ p, isdigit c = true)
    (hrest : '\x00' ∉ rest) (hx : x ≠ '\x00') :
    parse_line (s ++ ' ' :: (p ++ ' ' :: (rest ++ [x])))
      = some (scanned s, scanned p, rest) := by
  have hnul : '\x00' ∉ s ++ ' ' :: (p ++ ' ' :: (rest ++ [x])) := by
    intro hm
    rcases List.mem_append.mp hm with h1 | h1
    · exact isdigit_ne _ '\x00' (hsd _ h1) (by decide) rfl
    · rcases List.mem_cons.mp h1 with h2 | h2
      · revert h2; decide
      · rcases List.mem_append.mp h2 with h3 | h3
        · exact isdigit_ne _ '\x00' (hpd _ h3) (by decide) rfl
        · rcases List.mem_cons.mp h3 with h4 | h4
          · revert h4; decide
          · rcases List.mem_append.mp h4 with h5 | h5
            · exact hrest h5
            · rw [List.mem_singleton] at h5
              exact hx h5.symm
  have hshape : s ++ ' ' :: (p ++ ' ' :: (rest ++ [x]))
      = (s ++ ' ' :: (p ++ ' ' :: rest)) ++ [x] := by simp
  have hf := parse_fields s p rest hs hsd hp hpd
  unfold parse_line
  rw [c_string_of_no_nul _ hnul, hshape, List.dropLast_concat]
  simp only [hf.1]
  cases h1 : after_blank (s ++ ' ' :: (p ++ ' ' :: rest)) with
  | none => rw [h1] at hf; simp at hf
  | some p1 =>
    have h2 : after_blank p1 = some rest := by simpa [h1] using hf.2
    simp only [h2, scanned]

theorem fgets_of_ne_nil (size : Nat) (stream : List Char) (h : stream ≠ []) :
    fgets size stream = some (fgets_aux (size - 1) stream) := by
  cases stream with
  | nil => exact absurd rfl h
  | cons c t => rfl

/-- One round of the loop of `open_concat_file`, given what `fgets` stores and
what the line parses to. -/
theorem open_loop_round (fd : Int) (base_dir : List Char) (fuel : Nat)
    (stream stored rest fpath : List Char) (os : OS) (fsize a b : Int) (chunks : List chunk)
    (hget : fgets (PATH_MAX + 1) stream = some (stored, rest))
    (hparse : parse_line stored = some (a, b, fpath)) :
    open_loop fd base_dir (fuel + 1) stream os fsize chunks =
      if fd ≥ 0 then
        open_loop fd base_dir fuel rest (os.open (chunk_path base_dir fpath)).2
          (to_off_t (fsize + b))
          (chunks ++ [⟨(os.open (chunk_path base_dir fpath)).1, a, to_size_t b⟩])
      else open_loop fd base_dir fuel rest os (to_off_t (fsize + b)) chunks := by
  rw [open_loop]
  simp only [hget, hparse]

theorem open_loop_eof (fd : Int) (base_dir : List Char) (fuel : Nat) (os : OS) (fsize : Int)
    (chunks : List chunk) :
    open_loop fd base_dir fuel [] os fsize chunks = some (os, fsize, chunks) := by
  cases fuel <;> simp [open_loop, fgets]

theorem well_formed_text_no_newline (l : IndexLine) (h : l.well_formed) : '\n' ∉ l.text := by
  obtain ⟨_, hsd, _, hpd, _, hnl, _, _⟩ := h
  intro hm
  unfold IndexLine.text at hm
  rcases List.mem_append.mp hm with h1 | h1
  · exact isdigit_ne _ '\n' (hsd _ h1) (by decide) rfl
  · rcases List.mem_cons.mp h1 with h2 | h2
    · revert h2; decide
    · rcases List.mem_append.mp h2 with h3 | h3
      · exact isdigit_ne _ '\n' (hpd _ h3) (by decide) rfl
      · rcases List.mem_cons.mp h3 with h4 | h4
        · revert h4; decide
        · exact hnl h4

/-- What `fgets` and `parse_line` make of a well-formed line followed by a
newline: the line is stored whole and parses to its three fields. -/
theorem terminated_line_parses (l : IndexLine) (h : l.well_formed) (more : List Char) :
    fgets (PATH_MAX + 1) (l.text ++ '\n' :: more) = some (l.text ++ ['\n'], more) ∧
    parse_line (l.text ++ ['\n'])
      = some (scanned l.start_offset, scanned l.portion_length, l.target_path) := by
  have hnl := well_formed_text_no_newline l h
  obtain ⟨hs, hsd, hp, hpd, _, _, hnul, hlen⟩ := h
  constructor
  · rw [fgets_of_ne_nil _ _ (by simp)]
    have : PATH_MAX + 1 - 1 = PATH_MAX := rfl
    rw [this, fgets_aux_line l.text more PATH_MAX hnl hlen]
  · have := parse_line_fields l.start_offset l.portion_length l.target_path '\n'
      hs hsd hp hpd hnul (by decide)
    simpa [IndexLine.text] using this

/-- What `fgets` and `parse_line` make of a well-formed last line that no
newline follows: the line is stored whole, the numbers are those of the line,
and the target path comes out without its last character. -/
theorem unterminated_line_parses (l : IndexLine) (h : l.well_formed) :
    fgets (PATH_MAX + 1) l.text = some (l.text, []) ∧
    parse_line l.text
      = some (scanned l.start_offset, scanned l.portion_length, l.target_path.dropLast) := by
  have hnl := well_formed_text_no_newline l h
  obtain ⟨hs, hsd, hp, hpd, ht, _, hnul, hlen⟩ := h
  constructor
  · rw [fgets_of_ne_nil _ _ (by simp [IndexLine.text])]
    have : PATH_MAX + 1 - 1 = PATH_MAX := rfl
    rw [this, fgets_aux_last l.text PATH_MAX hnl (Nat.le_of_lt hlen)]
  · have hsplit : l.target_path = l.target_path.dropLast ++ [l.target_path.getLast ht] :=
      (List.dropLast_append_getLast ht).symm
    have hx : l.target_path.getLast ht ≠ '\x00' :=
      fun e => hnul (e ▸ List.getLast_mem ht)
    have hrest : '\x00' ∉ l.target_path.dropLast :=
      fun hm => hnul (List.dropLast_subset _ hm)
    have := parse_line_fields l.start_offset l.portion_length l.target_path.dropLast
      (l.target_path.getLast ht) hs hsd hp hpd hrest hx
    rw [← hsplit] at this
    simpa [IndexLine.text] using this

theorem scanned_of_small (ds : List Char) (h : (decimal ds : Int) < 2 ^ 63) :
    scanned ds = (decimal ds : Int) ∧ to_size_t (scanned ds) = decimal ds := by
  have hmin : min (decimal ds) (2 ^ 64 - 1) = decimal ds := by
    apply Nat.min_eq_left
    norm_num at h ⊢
    omega
  have h1 : scanned ds = (decimal ds : Int) := by
    unfold scanned
    rw [hmin]
    exact to_off_t_of_range _ (Int.ofNat_nonneg _) h
  refine ⟨h1, ?_⟩
  rw [h1]
  exact_mod_cast to_size_t_of_range _ (Int.ofNat_nonneg _) h

theorem description_text_cons (l : IndexLine) (ls : List IndexLine) (nl : Bool)
    (h : ls ≠ [] ∨ nl = true) :
    description_text (l :: ls) nl = l.text ++ '\n' :: description_text ls nl := by
  cases ls with
  | nil =>
    cases nl with
    | false => simp at h
    | true => rfl
  | cons l2 ls2 => cases nl <;> rfl

theorem portion_sum_cons (l : IndexLine) (ls : List IndexLine) :
    portion_sum (l :: ls) = decimal l.portion_length + portion_sum ls := by
  simp [portion_sum]

/-- The loop of `open_concat_file` on the text of a well-formed description:
it ends without `abort()`, `fsize` grows by the sum of the portion fields, no
chunk is built in the size-only mode, and with `fd >= 0` one chunk per line is
appended, in order, with the numbers of the line. -/
theorem open_loop_well_formed (fd : Int) (base_dir : List Char) (lines : List IndexLine)
    (nl : Bool) (hwf : ∀ l ∈ lines, l.well_formed) (fuel : Nat) (os : OS) (fsize : Int)
    (chunks : List chunk) (hfuel : (description_text lines nl).length ≤ fuel)
    (h0 : 0 ≤ fsize) (hsum : fsize + (portion_sum lines : Int) < 2 ^ 63) :
    ∃ os1 chunks1,
      open_loop fd base_dir fuel (description_text lines nl) os fsize chunks
        = some (os1, fsize + (portion_sum lines : Int), chunks1) ∧
      (fd < 0 → os1 = os ∧ chunks1 = chunks) ∧
      (0 ≤ fd → chunks1.map (fun c => (c.start_offset, c.portion))
        = chunks.map (fun c => (c.start_offset, c.portion))
          ++ lines.map (fun l => (scanned l.start_offset, decimal l.portion_length))) := by
  induction lines generalizing fuel os fsize chunks with
  | nil =>
    refine ⟨os, chunks, ?_, fun _ => ⟨rfl, rfl⟩, fun _ => by simp⟩
    have : description_text [] nl = [] := by cases nl <;> rfl
    rw [this, open_loop_eof]
    simp [portion_sum]
  | cons l ls ih =>
    have hl : l.well_formed := hwf l (List.mem_cons_self _ _)
    have hls : ∀ x ∈ ls, x.well_formed := fun x hx => hwf x (List.mem_cons_of_mem _ hx)
    rw [portion_sum_cons] at hsum ⊢
    have hrest_nonneg : (0 : Int) ≤ (portion_sum ls : Int) := Int.ofNat_nonneg _
    have hp_nonneg : (0 : Int) ≤ (decimal l.portion_length : Int) := Int.ofNat_nonneg _
    push_cast at hsum ⊢
    have hsmall : (decimal l.portion_length : Int) < 2 ^ 63 := by omega
    obtain ⟨hsc, hsz⟩ := scanned_of_small l.portion_length hsmall
    have hacc : to_off_t (fsize + scanned l.portion_length)
        = fsize + (decimal l.portion_length : Int) := by
      rw [hsc]
      exact to_off_t_of_range _ (by omega) (by omega)
    have htext_ne : l.text ≠ [] := by simp [IndexLine.text]
    by_cases hlast : ls = [] ∧ nl = false
    · obtain ⟨hnil, hnl⟩ := hlast
      subst hnil
      subst hnl
      have hdesc : description_text [l] false = l.text := rfl
      rw [hdesc] at hfuel ⊢
      obtain ⟨hget, hparse⟩ := unterminated_line_parses l hl
      cases fuel with
      | zero =>
        exfalso
        apply htext_ne
        exact List.length_eq_zero.mp (Nat.le_zero.mp hfuel)
      | succ k =>
        rw [open_loop_round fd base_dir k l.text l.text [] l.target_path.dropLast os fsize
          (scanned l.start_offset) (scanned l.portion_length) chunks hget hparse]
        by_cases hfd : fd ≥ 0
        · rw [if_pos hfd]
          rw [open_loop_eof, hacc, hsz]
          refine ⟨_, _, rfl, fun hneg => by omega, fun _ => ?_⟩
          simp
        · rw [if_neg hfd]
          rw [open_loop_eof, hacc]
          refine ⟨_, _, rfl, fun _ => ⟨rfl, rfl⟩, fun hpos => by omega⟩
    · have hcase : ls ≠ [] ∨ nl = true := by
        by_cases hnil : ls = []
        · right
          cases nl with
          | false => exact absurd ⟨hnil, rfl⟩ hlast
          | true => rfl
        · exact Or.inl hnil
      rw [description_text_cons l ls nl hcase] at hfuel ⊢
      obtain ⟨hget, hparse⟩ := terminated_line_parses l hl (description_text ls nl)
      cases fuel with
      | zero => simp at hfuel
      | succ k =>
        have hk : (description_text ls nl).length ≤ k := by
          simp only [List.length_append, List.length_cons] at hfuel
          omega
        rw [open_loop_round fd base_dir k _ _ _ l.target_path os fsize
          (scanned l.start_offset) (scanned l.portion_length) chunks hget hparse]
        by_cases hfd : fd ≥ 0
        · rw [if_pos hfd]
          rw [hacc, hsz]
          obtain ⟨os1, chunks1, hrun, _, hch⟩ := ih hls k
            (os.open (chunk_path base_dir l.target_path)).2
            (fsize + (decimal l.portion_length : Int))
            (chunks ++ [⟨(os.open (chunk_path base_dir l.target_path)).1,
              scanned l.start_offset, decimal l.portion_length⟩])
            hk (by omega) (by omega)
          refine ⟨os1, chunks1, ?_, fun hneg => by omega, fun hpos => ?_⟩
          · rw [hrun, add_assoc]
          · rw [hch hpos]
            simp
        · rw [if_neg hfd]
          rw [hacc]
          obtain ⟨os1, chunks1, hrun, hsame, _⟩ := ih hls k os
            (fsize + (decimal l.portion_length : Int)) chunks hk (by omega) (by omega)
          refine ⟨os1, chunks1, ?_, hsame, fun hpos => by omega⟩
          rw [hrun, add_assoc]

/-- C3, amended: for a description whose lines all have the form
`<start_offset> <portion_length> <target_path>` (two non-empty runs of decimal
digits and a non-empty target path, separated by single blanks) and are
shorter than `PATH_MAX` characters, so that each fits the line buffer with its
terminator, with or without a newline after the last line, and whose portion
fields sum to less than 2^63: `open_concat_file` with any handle `fd >= 0`
open on the description, and `open_concat_file` with `fd = -1`, return a
virtual file whose `fsize` is the sum of the portion fields (0 for no line),
and `get_concat_file_size` returns that same value. -/
theorem fsize_is_sum_of_portion_fields (os : OS) (path : List Char)
    (lines : List IndexLine) (nl : Bool)
    (hwf : ∀ l ∈ lines, l.well_formed)
    (hsum : (portion_sum lines : Int) < 2 ^ 63)
    (hfile : os.content path = some (description_text lines nl)) :
    (∀ fd : Int, 0 ≤ fd → os.fd_path fd = some path →
      ∃ os1 cf, open_concat_file os fd path = some (os1, some cf) ∧
        cf.fsize = (portion_sum lines : Int)) ∧
    (∃ os1 cf, open_concat_file os (-1) path = some (os1, some cf) ∧
      cf.fsize = (portion_sum lines : Int) ∧ cf.chunks = []) ∧
    (∃ os1, get_concat_file_size os path = some (os1, (portion_sum lines : Int))) := by
  have hneg : ¬ ((-1 : Int) ≥ 0) := by decide
  have hstream2 : open_stream os (-1) path
      = some ((os.open path).1, description_text lines nl, (os.open path).2) := by
    unfold open_stream
    rw [if_neg hneg]
    simp only [hfile]
  obtain ⟨osb, chunksb, hrunb, hsame, _⟩ := open_loop_well_formed (-1)
    (dirname (path.take PATH_MAX)) lines nl hwf (description_text lines nl).length
    (os.open path).2 0 [] (le_refl _) (le_refl _) (by simpa using hsum)
  have hchunksb : chunksb = [] := (hsame (by decide)).2
  have hsize : open_concat_file os (-1) path
      = some (osb.close (os.open path).1,
          some ⟨chunksb, -1, 0 + (portion_sum lines : Int), 1⟩) := by
    unfold open_concat_file
    rw [hstream2]
    simp only [hrunb]
  refine ⟨?_,
    ⟨osb.close (os.open path).1, ⟨chunksb, -1, 0 + (portion_sum lines : Int), 1⟩, hsize,
      ?_, hchunksb⟩, ?_⟩
  · intro fd hfd hopen
    have hstream1 : open_stream os fd path
        = some ((os.dup fd).1, description_text lines nl, (os.dup fd).2) := by
      unfold open_stream
      rw [if_pos hfd]
      simp only [hopen, hfile]
    obtain ⟨osa, chunksa, hruna, _, _⟩ := open_loop_well_formed fd
      (dirname (path.take PATH_MAX)) lines nl hwf (description_text lines nl).length
      (os.dup fd).2 0 [] (le_refl _) (le_refl _) (by simpa using hsum)
    refine ⟨osa.close (os.dup fd).1, ⟨chunksa, fd, 0 + (portion_sum lines : Int), 1⟩, ?_, ?_⟩
    · unfold open_concat_file
      rw [hstream1]
      simp only [hruna]
    · simp
  · simp
  · unfold get_concat_file_size
    rw [hsize]
    simp

/-- Witness for C3: the description `0 5 a.bin`, `0 3 b.bin` without a final
newline; the sum of the portion fields is 8.  The size is probed in a
directory where no descriptor is open. -/
theorem fsize_is_sum_of_portion_fields_witness :
    portion_sum two_lines = 8 ∧
    (∃ os1 cf, open_concat_file data_dir_opened 3 "/data/idx.txt".toList
        = some (os1, some cf) ∧ cf.fsize = (portion_sum two_lines : Int)) ∧
    (∃ os1, get_concat_file_size (data_dir "0 5 a.bin\n0 3 b.bin" "HELLO" "!!!XX")
        "/data/idx.txt".toList = some (os1, (portion_sum two_lines : Int))) :=
  ⟨by decide,
   (fsize_is_sum_of_portion_fields data_dir_opened "/data/idx.txt".toList two_lines false
      (by decide) (by decide) (by decide)).1 3 (by decide) (by decide),
   (fsize_is_sum_of_portion_fields (data_dir "0 5 a.bin\n0 3 b.bin" "HELLO" "!!!XX")
      "/data/idx.txt".toList two_lines false (by decide) (by decide) (by decide)).2.2⟩

/-! ## The registry: unknown handles and the frame of an erase -/

/-- C16: for every registry and every handle that no registered entry carries,
`read_concat_file` returns `-EINVAL` for every offset and count, stores
nothing and issues no positioned read. -/
theorem read_on_unknown_handle_is_einval (pread : Int → Nat → Int → PreadResult)
    (open_files : List concat_file) (h : Int) (habsent : ∀ e ∈ open_files, e.fd ≠ h)
    (count : Nat) (offset : Int) :
    read_concat_file pread open_files h count offset = ⟨-EINVAL, [], []⟩ ∧
    (read_concat_file pread open_files h count offset).ret = -22 ∧
    (read_concat_file pread open_files h count offset).calls = [] := by
  have hfind := open_files_find_eq_none h open_files habsent
  have hread : read_concat_file pread open_files h count offset = ⟨-EINVAL, [], []⟩ := by
    unfold read_concat_file
    rw [hfind]
  rw [hread]
  exact ⟨rfl, rfl, rfl⟩

/-- Witness for C16: handle 9 is read in a registry that holds handles 5
and 6, the positioned reads being ready to deliver bytes. -/
theorem read_on_unknown_handle_is_einval_witness :
    read_concat_file (fun _ _ _ => PreadResult.ok ['x'])
      [⟨[⟨8, 0, 4⟩], 5, 4, 1⟩, ⟨[⟨7, 0, 2⟩], 6, 2, 1⟩] 9 3 0 = ⟨-EINVAL, [], []⟩ :=
  (read_on_unknown_handle_is_einval (fun _ _ _ => PreadResult.ok ['x'])
    [⟨[⟨8, 0, 4⟩], 5, 4, 1⟩, ⟨[⟨7, 0, 2⟩], 6, 2, 1⟩] 9 (by decide) 3 0).1

theorem eraseP_eq_filter (fd : Int) (l : List concat_file)
    (hd : (l.map (fun e => e.fd)).Nodup) :
    l.eraseP (fun cf => decide (cf.fd = fd)) = l.filter (fun e => decide (e.fd ≠ fd)) := by
  induction l with
  | nil => rfl
  | cons x rest ih =>
    rw [List.map_cons, List.nodup_cons] at hd
    by_cases hx : x.fd = fd
    · have hrest : ∀ e ∈ rest, e.fd ≠ fd := by
        intro e he hefd
        apply hd.1
        rw [hx, ← hefd]
        exact List.mem_map_of_mem (fun e => e.fd) he
      have hfilter : rest.filter (fun e => !decide (e.fd = fd)) = rest := by
        apply List.filter_eq_self.mpr
        intro e he
        simpa using hrest e he
      simp [List.eraseP_cons, List.filter_cons, hx, hfilter]
    · simp [List.eraseP_cons, List.filter_cons, hx, ih hd.2]

/-- C17: in a registry with pairwise distinct handles, `open_files_erase h`
leaves exactly the entries whose handle differs from `h`, unmodified and in
the order they had, wherever the erased entry stood; and when no entry
carries `h` the registry is unchanged and nothing is returned. -/
theorem erase_keeps_the_other_entries (open_files : List concat_file) (h : Int)
    (hdistinct : (open_files.map (fun e => e.fd)).Nodup) :
    (open_files_erase h open_files).2 = open_files.filter (fun e => decide (e.fd ≠ h)) ∧
    ((∀ e ∈ open_files, e.fd ≠ h) →
      open_files_erase h open_files = (none, open_files)) := by
  constructor
  · rw [open_files_erase_eq]
    exact eraseP_eq_filter h open_files hdistinct
  · intro habsent
    rw [open_files_erase_eq, open_files_find_eq_none h open_files habsent,
      eraseP_absent h open_files habsent]

/-- Witness for C17: in a registry with the handles 5, 6, 7 the entry at the
head, the one in the middle and the one at the tail are erased in turn. -/
theorem erase_keeps_the_other_entries_witness :
    (open_files_erase 5 [⟨[], 5, 0, 1⟩, ⟨[⟨8, 0, 4⟩], 6, 4, 1⟩, ⟨[], 7, 0, 1⟩]).2
      = [⟨[⟨8, 0, 4⟩], 6, 4, 1⟩, ⟨[], 7, 0, 1⟩] ∧
    (open_files_erase 6 [⟨[], 5, 0, 1⟩, ⟨[⟨8, 0, 4⟩], 6, 4, 1⟩, ⟨[], 7, 0, 1⟩]).2
      = [⟨[], 5, 0, 1⟩, ⟨[], 7, 0, 1⟩] ∧
    (open_files_erase 7 [⟨[], 5, 0, 1⟩, ⟨[⟨8, 0, 4⟩], 6, 4, 1⟩, ⟨[], 7, 0, 1⟩]).2
      = [⟨[], 5, 0, 1⟩, ⟨[⟨8, 0, 4⟩], 6, 4, 1⟩] :=
  ⟨(erase_keeps_the_other_entries
      [⟨[], 5, 0, 1⟩, ⟨[⟨8, 0, 4⟩], 6, 4, 1⟩, ⟨[], 7, 0, 1⟩] 5 (by decide)).1,
   (erase_keeps_the_other_entries
      [⟨[], 5, 0, 1⟩, ⟨[⟨8, 0, 4⟩], 6, 4, 1⟩, ⟨[], 7, 0, 1⟩] 6 (by decide)).1,
   (erase_keeps_the_other_entries
      [⟨[], 5, 0, 1⟩, ⟨[⟨8, 0, 4⟩], 6, 4, 1⟩, ⟨[], 7, 0, 1⟩] 7 (by decide)).1⟩

/-! ## The range resolver: the size of the result -/

/-- With reads that store at most what they were asked for, the loop stores at
most `count` further bytes, and a non-negative result is the number of bytes
in the buffer. -/
theorem read_loop_bounded (pread : Int → Nat → Int → PreadResult)
    (hshort : ∀ fd n pos bytes, pread fd n pos = .ok bytes → bytes.length ≤ n)
    (herrno : ∀ fd n pos e, pread fd n pos = .error e → 0 < e)
    (chunks : List chunk) (count : Nat) (offset virtual_offset bytes_read : Int)
    (buf : List Char) (calls : List PreadCall) (hbr : bytes_read = (buf.length : Int)) :
    (read_loop pread chunks count offset virtual_offset bytes_read buf calls).buf.length
        ≤ buf.length + count ∧
    (0 ≤ (read_loop pread chunks count offset virtual_offset bytes_read buf calls).ret →
      (read_loop pread chunks count offset virtual_offset bytes_read buf calls).ret
        = ((read_loop pread chunks count offset virtual_offset bytes_read buf
            calls).buf.length : Int)) := by
  induction chunks generalizing count offset virtual_offset bytes_read buf calls with
  | nil =>
    simp only [read_loop]
    exact ⟨Nat.le_add_right _ _, fun _ => hbr⟩
  | cons c rest ih =>
    unfold read_loop
    by_cases hcount : count > 0
    · rw [if_pos hcount]
      by_cases hc : virtual_offset + (c.portion : Int) > offset
      · rw [if_pos hc]
        cases hp : pread c.fd (if count < c.portion then count else c.portion)
            (c.start_offset + offset - virtual_offset) with
        | error errno =>
          simp only [hp]
          have hpos : 0 < errno := herrno _ _ _ _ hp
          refine ⟨Nat.le_add_right _ _, fun hret => ?_⟩
          omega
        | ok bytes =>
          simp only [hp]
          have hlen : bytes.length ≤ (if count < c.portion then count else c.portion) :=
            hshort _ _ _ _ hp
          have hle : bytes.length ≤ count := by
            split at hlen <;> omega
          have hbr1 : bytes_read + (bytes.length : Int) = ((buf ++ bytes).length : Int) := by
            rw [List.length_append, hbr]
            push_cast
            rfl
          have := ih (count - bytes.length) (offset + bytes.length)
            (virtual_offset + c.portion) (bytes_read + bytes.length) (buf ++ bytes)
            (calls ++ [⟨c, if count < c.portion then count else c.portion,
              c.start_offset + offset - virtual_offset⟩]) hbr1
          refine ⟨?_, this.2⟩
          have h1 := this.1
          rw [List.length_append] at h1
          omega
      · rw [if_neg hc]
        exact ih count offset (virtual_offset + c.portion) bytes_read buf calls hbr
    · rw [if_neg hcount]
      exact ⟨Nat.le_add_right _ _, fun _ => hbr⟩

/-- C19: when every positioned read returns an error (with a positive code) or
at most the number of bytes it was asked for, `read_concat_file` never stores
more than `count` bytes, and a non-negative result is at most `count` and is
the number of bytes stored in the buffer. -/
theorem result_counts_the_stored_bytes (pread : Int → Nat → Int → PreadResult)
    (hshort : ∀ fd n pos bytes, pread fd n pos = .ok bytes → bytes.length ≤ n)
    (herrno : ∀ fd n pos e, pread fd n pos = .error e → 0 < e)
    (open_files : List concat_file) (fd : Int) (count : Nat) (offset : Int) :
    (read_concat_file pread open_files fd count offset).buf.length ≤ count ∧
    (0 ≤ (read_concat_file pread open_files fd count offset).ret →
      (read_concat_file pread open_files fd count offset).ret
        = ((read_concat_file pread open_files fd count offset).buf.length : Int) ∧
      (read_concat_file pread open_files fd count offset).ret ≤ (count : Int)) := by
  have key : (read_concat_file pread open_files fd count offset).buf.length ≤ count ∧
      (0 ≤ (read_concat_file pread open_files fd count offset).ret →
        (read_concat_file pread open_files fd count offset).ret
          = ((read_concat_file pread open_files fd count offset).buf.length : Int)) := by
    unfold read_concat_file
    cases hfind : open_files_find fd open_files with
    | none =>
      simp only []
      refine ⟨Nat.zero_le _, fun hret => ?_⟩
      simp [EINVAL] at hret
    | some cf =>
      simp only []
      by_cases hgt : offset > cf.fsize
      · rw [if_pos hgt]
        exact ⟨Nat.zero_le _, fun _ => rfl⟩
      · rw [if_neg hgt]
        have := read_loop_bounded pread hshort herrno cf.chunks count offset 0 0 [] [] rfl
        simpa using this
  refine ⟨key.1, fun hret => ⟨key.2 hret, ?_⟩⟩
  rw [key.2 hret]
  exact_mod_cast key.1

theorem OS.pread_bounded (os : OS) (fd : Int) (n : Nat) (pos : Int) (bytes : List Char)
    (h : os.pread fd n pos = .ok bytes) : bytes.length ≤ n := by
  unfold OS.pread at h
  split at h
  · cases h
  · split at h
    · cases h
    · split at h
      · cases h
      · cases h
        simp [List.length_take]

theorem OS.pread_errno_pos (os : OS) (fd : Int) (n : Nat) (pos : Int) (e : Nat)
    (h : os.pread fd n pos = .error e) : 0 < e := by
  unfold OS.pread at h
  split at h
  · cases h; decide
  · split at h
    · cases h; decide
    · split at h
      · cases h; decide
      · cases h

/-- Witness for C19: the virtual file `HELLO!!!` over the descriptors 3 and 4
of `data_dir_chunks_open`, six bytes asked for at offset 0: the two reads
store `HELLO` and `!`, the result is 6, the number of bytes stored, and it
does not exceed the 6 bytes asked for. -/
theorem result_counts_the_stored_bytes_witness :
    (read_concat_file data_dir_chunks_open.pread [⟨[⟨3, 0, 5⟩, ⟨4, 0, 3⟩], 7, 8, 1⟩]
      7 6 0).buf = "HELLO!".toList ∧
    (read_concat_file data_dir_chunks_open.pread [⟨[⟨3, 0, 5⟩, ⟨4, 0, 3⟩], 7, 8, 1⟩]
      7 6 0).buf.length ≤ 6 ∧
    (read_concat_file data_dir_chunks_open.pread [⟨[⟨3, 0, 5⟩, ⟨4, 0, 3⟩], 7, 8, 1⟩]
      7 6 0).ret
      = ((read_concat_file data_dir_chunks_open.pread [⟨[⟨3, 0, 5⟩, ⟨4, 0, 3⟩], 7, 8, 1⟩]
          7 6 0).buf.length : Int) ∧
    (read_concat_file data_dir_chunks_open.pread [⟨[⟨3, 0, 5⟩, ⟨4, 0, 3⟩], 7, 8, 1⟩]
      7 6 0).ret ≤ 6 ∧
    (read_concat_file data_dir_chunks_open.pread [⟨[⟨3, 0, 5⟩, ⟨4, 0, 3⟩], 7, 8, 1⟩]
      7 6 0).ret = 6 :=
  ⟨by decide,
   (result_counts_the_stored_bytes data_dir_chunks_open.pread
      (OS.pread_bounded data_dir_chunks_open) (OS.pread_errno_pos data_dir_chunks_open)
      [⟨[⟨3, 0, 5⟩, ⟨4, 0, 3⟩], 7, 8, 1⟩] 7 6 0).1,
   ((result_counts_the_stored_bytes data_dir_chunks_open.pread
      (OS.pread_bounded data_dir_chunks_open) (OS.pread_errno_pos data_dir_chunks_open)
      [⟨[⟨3, 0, 5⟩, ⟨4, 0, 3⟩], 7, 8, 1⟩] 7 6 0).2 (by decide)).1,
   ((result_counts_the_stored_bytes data_dir_chunks_open.pread
      (OS.pread_bounded data_dir_chunks_open) (OS.pread_errno_pos data_dir_chunks_open)
      [⟨[⟨3, 0, 5⟩, ⟨4, 0, 3⟩], 7, 8, 1⟩] 7 6 0).2 (by decide)).2,
   by decide⟩

/-! ## The range resolver: reads that start at a chunk boundary -/

theorem read_loop_zero_count (pread : Int → Nat → Int → PreadResult) (chunks : List chunk)
    (offset virtual_offset bytes_read : Int) (buf : List Char) (calls : List PreadCall) :
    read_loop pread chunks 0 offset virtual_offset bytes_read buf calls
      = ⟨bytes_read, buf, calls⟩ := by
  cases chunks <;> simp [read_loop]

theorem total_portion_append (pre post : List chunk) :
    total_portion (pre ++ post) = total_portion pre + total_portion post := by
  simp [total_portion]

/-- Chunks that end at or before the requested offset are passed over: the
loop reaches the chunks after them with the running virtual offset advanced
by their portions and nothing else changed. -/
theorem read_loop_skip (pread : Int → Nat → Int → PreadResult) (pre post : List chunk)
    (count : Nat) (offset virtual_offset bytes_read : Int) (buf : List Char)
    (calls : List PreadCall) (h : virtual_offset + total_portion pre ≤ offset) :
    read_loop pread (pre ++ post) count offset virtual_offset bytes_read buf calls
      = read_loop pread post count offset (virtual_offset + total_portion pre)
          bytes_read buf calls := by
  induction pre generalizing virtual_offset with
  | nil => simp [total_portion]
  | cons c rest ih =>
    rw [total_portion_cons] at h ⊢
    have hrest := total_portion_nonneg rest
    have hc : ¬ (virtual_offset + (c.portion : Int) > offset) := by omega
    by_cases hcount : count > 0
    · rw [List.cons_append, read_loop, if_pos hcount, if_neg hc,
        ih (virtual_offset + c.portion) (by omega), add_assoc]
    · have h0 : count = 0 := by omega
      subst h0
      rw [read_loop_zero_count, read_loop_zero_count]

theorem chunk_bytes_length (file : Int → List Char) (c : chunk)
    (h : c.start_offset.toNat + c.portion ≤ (file c.fd).length) :
    (chunk_bytes file c).length = c.portion := by
  unfold chunk_bytes
  rw [List.length_take, List.length_drop]
  omega

theorem logical_content_cons (file : Int → List Char) (c : chunk) (rest : List chunk) :
    logical_content file (c :: rest) = chunk_bytes file c ++ logical_content file rest := by
  simp [logical_content]

theorem logical_content_append (file : Int → List Char) (pre post : List chunk) :
    logical_content file (pre ++ post)
      = logical_content file pre ++ logical_content file post := by
  simp [logical_content]

theorem logical_content_length (file : Int → List Char) (chunks : List chunk)
    (hext : ∀ c ∈ chunks, 0 ≤ c.start_offset ∧
      c.start_offset.toNat + c.portion ≤ (file c.fd).length) :
    ((logical_content file chunks).length : Int) = total_portion chunks := by
  induction chunks with
  | nil => simp [logical_content, total_portion]
  | cons c rest ih =>
    have hc := hext c (List.mem_cons_self _ _)
    have hrest := ih (fun x hx => hext x (List.mem_cons_of_mem _ hx))
    rw [logical_content_cons, total_portion_cons, List.length_append,
      chunk_bytes_length file c hc.2]
    push_cast
    rw [hrest]

/-- When the requested offset is the running virtual offset, reads deliver
the bytes of the files, and every chunk's extent lies inside its file, the
loop appends the first `count` bytes of the logical concatenation of the
remaining chunks. -/
theorem read_loop_in_sync (pread : Int → Nat → Int → PreadResult) (file : Int → List Char)
    (chunks : List chunk)
    (hread : ∀ c ∈ chunks, ∀ n pos, 0 ≤ pos →
      pread c.fd n pos = .ok (((file c.fd).drop pos.toNat).take n))
    (hext : ∀ c ∈ chunks, 0 ≤ c.start_offset ∧
      c.start_offset.toNat + c.portion ≤ (file c.fd).length)
    (count : Nat) (offset bytes_read : Int) (buf : List Char) (calls : List PreadCall) :
    (read_loop pread chunks count offset offset bytes_read buf calls).buf
      = buf ++ (logical_content file chunks).take count ∧
    (read_loop pread chunks count offset offset bytes_read buf calls).ret
      = bytes_read + (((logical_content file chunks).take count).length : Int) := by
  induction chunks generalizing count offset bytes_read buf calls with
  | nil => simp [read_loop, logical_content]
  | cons c rest ih =>
    have hc := hext c (List.mem_cons_self _ _)
    have hread1 := hread c (List.mem_cons_self _ _)
    have ih1 := ih (fun x hx => hread x (List.mem_cons_of_mem _ hx))
      (fun x hx => hext x (List.mem_cons_of_mem _ hx))
    have hclen := chunk_bytes_length file c hc.2
    rw [logical_content_cons]
    by_cases hcount : count > 0
    · rw [read_loop, if_pos hcount]
      by_cases hp0 : c.portion = 0
      · have hcond : ¬ (offset + (c.portion : Int) > offset) := by
          rw [hp0]
          simp
        have hnil : chunk_bytes file c = [] := by
          apply List.eq_nil_of_length_eq_zero
          rw [hclen, hp0]
        rw [if_neg hcond, hnil, List.nil_append]
        have hvo : offset + (c.portion : Int) = offset := by
          rw [hp0]
          simp
        rw [hvo]
        exact ih1 count offset bytes_read buf calls
      · have hcond : offset + (c.portion : Int) > offset := by
          have : (0 : Int) < (c.portion : Int) := by
            exact_mod_cast Nat.pos_of_ne_zero hp0
          omega
        have hpos : c.start_offset + offset - offset = c.start_offset := by omega
        rw [if_pos hcond]
        simp only [hpos]
        rw [hread1 _ _ hc.1]
        simp only []
        by_cases hlt : count < c.portion
        · rw [if_pos hlt]
          have hlen : (((file c.fd).drop c.start_offset.toNat).take count).length = count := by
            rw [List.length_take, List.length_drop]
            omega
          rw [hlen, Nat.sub_self, read_loop_zero_count]
          have htake : (chunk_bytes file c ++ logical_content file rest).take count
              = ((file c.fd).drop c.start_offset.toNat).take count := by
            rw [List.take_append_of_le_length (by omega)]
            unfold chunk_bytes
            rw [List.take_take, Nat.min_eq_left (Nat.le_of_lt hlt)]
          rw [htake, hlen]
          exact ⟨rfl, rfl⟩
        · rw [if_neg hlt]
          have hbytes : ((file c.fd).drop c.start_offset.toNat).take c.portion
              = chunk_bytes file c := rfl
          rw [hbytes, hclen]
          have hsplit : (chunk_bytes file c ++ logical_content file rest).take count
              = chunk_bytes file c ++ (logical_content file rest).take (count - c.portion) := by
            rw [List.take_append_eq_append_take, hclen,
              List.take_of_length_le (by omega)]
          have := ih1 (count - c.portion) (offset + c.portion) (bytes_read + c.portion)
            (buf ++ chunk_bytes file c)
            (calls ++ [⟨c, c.portion, c.start_offset⟩])
          rw [this.1, this.2, hsplit, List.length_append, hclen, List.append_assoc]
          refine ⟨rfl, ?_⟩
          push_cast
          omega
    · have h0 : count = 0 := by omega
      subst h0
      rw [read_loop_zero_count]
      simp

theorem read_loop_from_boundary (pread : Int → Nat → Int → PreadResult)
    (file : Int → List Char) (pre post : List chunk)
    (hread : ∀ c ∈ pre ++ post, ∀ n pos, 0 ≤ pos →
      pread c.fd n pos = .ok (((file c.fd).drop pos.toNat).take n))
    (hext : ∀ c ∈ pre ++ post, 0 ≤ c.start_offset ∧
      c.start_offset.toNat + c.portion ≤ (file c.fd).length)
    (count : Nat) :
    (read_loop pread (pre ++ post) count (total_portion pre) 0 0 [] []).buf
      = logical_slice file (pre ++ post) count (total_portion pre) ∧
    (read_loop pread (pre ++ post) count (total_portion pre) 0 0 [] []).ret
      = ((logical_slice file (pre ++ post) count (total_portion pre)).length : Int) := by
  have hlen := logical_content_length file pre
    (fun c hc => hext c (List.mem_append_left _ hc))
  have hdrop : (logical_content file (pre ++ post)).drop (total_portion pre).toNat
      = logical_content file post := by
    rw [logical_content_append, ← hlen, Int.toNat_ofNat, List.drop_left]
  have hsync := read_loop_in_sync pread file post
    (fun c hc => hread c (List.mem_append_right _ hc))
    (fun c hc => hext c (List.mem_append_right _ hc))
    count (total_portion pre) 0 [] []
  rw [read_loop_skip pread pre post count (total_portion pre) 0 0 [] [] (by omega), zero_add]
  unfold logical_slice
  rw [hdrop, hsync.1, hsync.2]
  simp

/-- C20: for a registered virtual file whose `fsize` is the sum of its
portions, whose chunks lie inside their files, and whose positioned reads
deliver the bytes of those files (so that no read inside a chunk is short):
a read that starts at the virtual start of a chunk, the sum of the portions
of the `k` chunks before it, returns for every `count` exactly the bytes
`[offset, min(offset + count, fsize))` of the logical concatenation. -/
theorem read_at_chunk_start_is_exact (pread : Int → Nat → Int → PreadResult)
    (file : Int → List Char) (open_files : List concat_file) (fd : Int) (cf : concat_file)
    (hreg : open_files_find fd open_files = some cf)
    (hsize : cf.fsize = total_portion cf.chunks)
    (hread : ∀ c ∈ cf.chunks, ∀ n pos, 0 ≤ pos →
      pread c.fd n pos = .ok (((file c.fd).drop pos.toNat).take n))
    (hext : ∀ c ∈ cf.chunks, 0 ≤ c.start_offset ∧
      c.start_offset.toNat + c.portion ≤ (file c.fd).length)
    (k count : Nat) :
    (read_concat_file pread open_files fd count (total_portion (cf.chunks.take k))).buf
      = logical_slice file cf.chunks count (total_portion (cf.chunks.take k)) ∧
    (read_concat_file pread open_files fd count (total_portion (cf.chunks.take k))).ret
      = ((logical_slice file cf.chunks count
          (total_portion (cf.chunks.take k))).length : Int) := by
  have hsplit := List.take_append_drop k cf.chunks
  have htotal : total_portion cf.chunks
      = total_portion (cf.chunks.take k) + total_portion (cf.chunks.drop k) := by
    rw [← total_portion_append, hsplit]
  have hpost := total_portion_nonneg (cf.chunks.drop k)
  have hnot : ¬ (total_portion (cf.chunks.take k) > cf.fsize) := by omega
  have key := read_loop_from_boundary pread file (cf.chunks.take k) (cf.chunks.drop k)
    (by rw [hsplit]; exact hread) (by rw [hsplit]; exact hext) count
  rw [hsplit] at key
  unfold read_concat_file
  rw [hreg]
  simp only []
  rw [if_neg hnot]
  exact key

/-- Witness for C20: on the virtual file `HELLO!!!`, a read of 7 bytes at the
start of the first chunk crosses the chunk boundary and returns `HELLO!!`, and
a read of 9 bytes at the start of the second chunk returns `!!!`. -/
theorem read_at_chunk_start_is_exact_witness :
    logical_slice two_files hello_file.chunks 7 (total_portion (hello_file.chunks.take 0))
      = "HELLO!!".toList ∧
    (read_concat_file two_files_pread [hello_file] 7 7
        (total_portion (hello_file.chunks.take 0))).buf
      = logical_slice two_files hello_file.chunks 7
          (total_portion (hello_file.chunks.take 0)) ∧
    logical_slice two_files hello_file.chunks 9 (total_portion (hello_file.chunks.take 1))
      = "!!!".toList ∧
    (read_concat_file two_files_pread [hello_file] 7 9
        (total_portion (hello_file.chunks.take 1))).buf
      = logical_slice two_files hello_file.chunks 9
          (total_portion (hello_file.chunks.take 1)) :=
  ⟨by decide,
   (read_at_chunk_start_is_exact two_files_pread two_files [hello_file] 7 hello_file
      (by decide) (by decide)
      (fun c _ n pos hpos => by
        unfold two_files_pread
        rw [if_neg (not_lt.mpr hpos)])
      (by decide) 0 7).1,
   by decide,
   (read_at_chunk_start_is_exact two_files_pread two_files [hello_file] 7 hello_file
      (by decide) (by decide)
      (fun c _ n pos hpos => by
        unfold two_files_pread
        rw [if_neg (not_lt.mpr hpos)])
      (by decide) 1 9).1⟩

/-! ## The range resolver on concrete files: selected chunks and extents -/

/-- C15, the code at a failing input: `a.bin` holds `abc` although its chunk
declares 5 bytes, so the read on it is short and the offset, 3, falls behind
the running virtual offset, 5.  The guard `5 + 0 > 3` then selects the chunk
`4 0 b.bin` of portion 0, and a positioned read of 0 bytes is issued on it at
position 4 + 3 - 5 = 2. -/
theorem zero_length_chunk_is_read_after_short_read :
    open_then_read_calls "0 5 a.bin\n4 0 b.bin\n" "abc" "uvwxyz" 5 0
      = some [(0, 5, 5, 0), (4, 0, 0, 2)] ∧
    open_then_read "0 5 a.bin\n4 0 b.bin\n" "abc" "uvwxyz" 5 0 = some (3, "abc".toList) := by
  decide

/-- C18, the code at a failing input: the only chunk is bytes 2 to 5 of
`a.bin = 0123456789`, the virtual file being `2345`.  A read of 4 bytes at
offset 1 is issued as a positioned read of `min(count, portion) = 4` bytes at
position 3, which ends at byte 7, past the end 6 of the chunk: the call
returns `3456`, whose last byte lies outside the chunk. -/
theorem read_runs_past_the_extent_of_the_chunk :
    open_then_read_calls "2 4 a.bin\n" "0123456789" "" 4 1 = some [(2, 4, 4, 3)] ∧
    open_then_read_extents "2 4 a.bin\n" "0123456789" "" 4 1 = some [false] ∧
    open_then_read "2 4 a.bin\n" "0123456789" "" 4 1 = some (4, "3456".toList) ∧
    open_then_slice "2 4 a.bin\n" "0123456789" "" 4 1 = some "345".toList := by
  decide

/-! ## The index parser: the path opened for a chunk -/

theorem fgets_aux_length (room : Nat) (s : List Char) : (fgets_aux room s).1.length ≤ room := by
  induction room generalizing s with
  | zero => simp [fgets_aux]
  | succ r ih =>
    cases s with
    | nil => simp [fgets_aux]
    | cons c t =>
      by_cases hc : c = '\n'
      · simp [fgets_aux, hc]
      · have := ih t
        simp only [fgets_aux, hc, if_false, List.length_cons]
        omega

theorem fgets_stored_length (size : Nat) (stream stored rest : List Char)
    (h : fgets size stream = some (stored, rest)) : stored.length ≤ size - 1 := by
  cases stream with
  | nil => simp [fgets] at h
  | cons c t =>
    simp only [fgets, Option.some.injEq] at h
    have := fgets_aux_length (size - 1) (c :: t)
    rw [h] at this
    exact this

theorem after_blank_length (s t : List Char) (h : after_blank s = some t) :
    t.length ≤ s.length := by
  induction s with
  | nil => simp [after_blank] at h
  | cons c rest ih =>
    by_cases hc : c = ' '
    · simp [after_blank, List.dropWhile_cons, hc] at h
      rw [← h]
      simp
    · have h1 : after_blank rest = some t := by
        unfold after_blank at h ⊢
        simpa [List.dropWhile_cons, hc] using h
      have := ih h1
      simp only [List.length_cons]
      omega

theorem parse_line_fpath_length (stored fpath : List Char) (a b : Int)
    (h : parse_line stored = some (a, b, fpath)) : fpath.length ≤ stored.length := by
  unfold parse_line at h
  simp only [] at h
  cases hs : sscanf_llu_llu (c_string stored).dropLast with
  | none => simp [hs] at h
  | some ab =>
    cases h1 : after_blank (c_string stored).dropLast with
    | none => simp [hs, h1] at h
    | some p1 =>
      cases h2 : after_blank p1 with
      | none => simp [hs, h1, h2] at h
      | some p2 =>
        simp only [hs, h1, h2, Option.some.injEq, Prod.mk.injEq] at h
        have e : p2 = fpath := h.2.2
        subst e
        have l1 := after_blank_length _ _ h1
        have l2 := after_blank_length _ _ h2
        have l3 : (c_string stored).dropLast.length ≤ stored.length := by
          rw [List.length_dropLast]
          have : (c_string stored).length ≤ stored.length := by
            unfold c_string
            exact (List.takeWhile_sublist _).length_le
          omega
        omega

/-- C11, counterexample: the description is `/data/idx.txt` and a line is
`0 5 ttt...t` with a target of 4090 characters, a line that fits the buffer.
The target is extracted whole, but the path opened for the chunk is not
`/data` + `/` + target (4096 characters): `snprintf` cuts it to the
`PATH_MAX - 1 = 4095` characters that `tpath` holds. -/
theorem long_relative_path_is_cut :
    parse_line ("0".toList ++ ' ' :: ("5".toList ++ ' ' :: List.replicate 4090 't') ++ ['\n'])
      = some (0, 5, List.replicate 4090 't') ∧
    (resolved_path "/data/idx.txt".toList (List.replicate 4090 't')).length = 4096 ∧
    (chunk_path (dirname ("/data/idx.txt".toList.take PATH_MAX))
      (List.replicate 4090 't')).length = 4095 ∧
    chunk_path (dirname ("/data/idx.txt".toList.take PATH_MAX)) (List.replicate 4090 't')
      ≠ resolved_path "/data/idx.txt".toList (List.replicate 4090 't') := by
  have hdir : dirname ("/data/idx.txt".toList.take PATH_MAX) = "/data".toList := by decide
  have hdir2 : dirname "/data/idx.txt".toList = "/data".toList := by decide
  have hhead : (List.replicate 4090 't').head? ≠ some '/' := by
    rw [show (4090 : Nat) = 4089 + 1 from rfl, List.replicate_succ]
    decide
  have hlen1 : (resolved_path "/data/idx.txt".toList (List.replicate 4090 't')).length
      = 4096 := by
    unfold resolved_path
    rw [if_neg hhead, hdir2, List.length_append, List.length_cons, List.length_replicate]
    rfl
  have hlen2 : (chunk_path (dirname ("/data/idx.txt".toList.take PATH_MAX))
      (List.replicate 4090 't')).length = 4095 := by
    unfold chunk_path
    rw [if_neg hhead, hdir, List.length_take, List.length_append, List.length_cons,
      List.length_replicate]
    rfl
  have hwf : (⟨"0".toList, "5".toList, List.replicate 4090 't'⟩ : IndexLine).well_formed := by
    refine ⟨by decide, by decide, by decide, by decide, ?_, ?_, ?_, ?_⟩
    · intro h
      have hl := congrArg List.length h
      rw [List.length_replicate] at hl
      exact absurd hl (by decide)
    · intro h
      have := List.eq_of_mem_replicate h
      revert this
      decide
    · intro h
      have := List.eq_of_mem_replicate h
      revert this
      decide
    · unfold IndexLine.text
      rw [List.length_append, List.length_cons, List.length_append, List.length_cons,
        List.length_replicate]
      decide
  have hparse := (terminated_line_parses _ hwf []).2
  have hs0 : scanned "0".toList = 0 := by decide
  have hs5 : scanned "5".toList = 5 := by decide
  refine ⟨?_, hlen1, hlen2, ?_⟩
  · rw [← hs0, ← hs5]
    exact hparse
  · intro h
    have := congrArg List.length h
    rw [hlen1, hlen2] at this
    revert this
    decide

/-- C11, amended: for a description path of at most `PATH_MAX` characters and
the target path `fpath` extracted from a line, the loop with `fd >= 0` opens,
for the chunk of that line, the target itself when it begins with `/`, and
otherwise the directory part of the description path followed by `/` and the
target, provided that concatenation is shorter than `PATH_MAX` characters;
the chunk carries the descriptor that this open returns. -/
theorem chunk_is_opened_at_resolved_path (fd : Int) (path : List Char) (fuel : Nat)
    (stream stored rest fpath : List Char) (os : OS) (fsize a b : Int) (chunks : List chunk)
    (hfd : 0 ≤ fd) (hpath : path.length ≤ PATH_MAX)
    (hget : fgets (PATH_MAX + 1) stream = some (stored, rest))
    (hparse : parse_line stored = some (a, b, fpath))
    (hfit : fpath.head? ≠ some '/' → (dirname path ++ '/' :: fpath).length < PATH_MAX) :
    chunk_path (dirname (path.take PATH_MAX)) fpath = resolved_path path fpath ∧
    open_loop fd (dirname (path.take PATH_MAX)) (fuel + 1) stream os fsize chunks
      = open_loop fd (dirname (path.take PATH_MAX)) fuel rest
          (os.open (resolved_path path fpath)).2 (to_off_t (fsize + b))
          (chunks ++ [⟨(os.open (resolved_path path fpath)).1, a, to_size_t b⟩]) := by
  have hstored : stored.length ≤ PATH_MAX := fgets_stored_length _ _ _ _ hget
  have hflen : fpath.length ≤ PATH_MAX :=
    Nat.le_trans (parse_line_fpath_length stored fpath a b hparse) hstored
  have hres : chunk_path (dirname (path.take PATH_MAX)) fpath = resolved_path path fpath := by
    unfold chunk_path resolved_path
    rw [List.take_of_length_le hpath]
    by_cases habs : fpath.head? = some '/'
    · rw [if_pos habs, if_pos habs, List.take_of_length_le hflen]
    · rw [if_neg habs, if_neg habs]
      apply List.take_of_length_le
      have := hfit habs
      omega
  refine ⟨hres, ?_⟩
  rw [open_loop_round fd _ fuel stream stored rest fpath os fsize a b chunks hget hparse,
    if_pos hfd, hres]

/-- Witness for C11: the description `/data/idx.txt` and the line `0 5 a.bin`;
the path opened is `/data/a.bin`. -/
theorem chunk_is_opened_at_resolved_path_witness :
    resolved_path "/data/idx.txt".toList "a.bin".toList = "/data/a.bin".toList ∧
    resolved_path "/data/idx.txt".toList "/srv/a.bin".toList = "/srv/a.bin".toList ∧
    chunk_path (dirname ("/data/idx.txt".toList.take PATH_MAX)) "a.bin".toList
      = resolved_path "/data/idx.txt".toList "a.bin".toList :=
  ⟨by decide, by decide,
   (chunk_is_opened_at_resolved_path 3 "/data/idx.txt".toList 0 "0 5 a.bin\n".toList
      "0 5 a.bin\n".toList [] "a.bin".toList data_dir_opened 0 0 5 []
      (by decide) (by decide) (by decide) (by decide) (by decide)).1⟩

/-! ## The index parser: lines that end the process -/

/-- The loop reaches `abort()` exactly when one of the stored lines does not
parse. -/
theorem open_loop_aborts_iff (fd : Int) (base_dir : List Char) (fuel : Nat)
    (stream : List Char) (os : OS) (fsize : Int) (chunks : List chunk) :
    open_loop fd base_dir fuel stream os fsize chunks = none ↔
      ∃ s ∈ stored_lines fuel stream, parse_line s = none := by
  induction fuel generalizing stream os fsize chunks with
  | zero => simp [open_loop, stored_lines]
  | succ k ih =>
    rw [open_loop, stored_lines]
    cases hget : fgets (PATH_MAX + 1) stream with
    | none => simp
    | some r =>
      obtain ⟨stored, rest⟩ := r
      simp only []
      cases hparse : parse_line stored with
      | none => simp [hparse]
      | some t =>
        obtain ⟨a, b, fpath⟩ := t
        simp only []
        by_cases hfd : fd ≥ 0
        · rw [if_pos hfd, ih]
          simp [hparse]
        · rw [if_neg hfd, ih]
          simp [hparse]

theorem to_off_t_accumulates (total b : Int) :
    to_off_t (to_off_t total + b) = to_off_t (total + (to_size_t b : Int)) := by
  have hcast : ((to_size_t b : Nat) : Int) = b % 2 ^ 64 := by
    unfold to_size_t
    exact Int.toNat_of_nonneg (Int.emod_nonneg b (by norm_num))
  rw [hcast]
  unfold to_off_t
  norm_num
  omega

theorem total_portion_snoc (chunks : List chunk) (c : chunk) :
    total_portion (chunks ++ [c]) = total_portion chunks + (c.portion : Int) := by
  simp [total_portion]

/-- With `fd >= 0` the loop keeps `fsize` equal to the sum of the portions of
the chunks built so far, reduced to an `off_t`. -/
theorem open_loop_fsize_wraps (fd : Int) (base_dir : List Char) (hfd : 0 ≤ fd) (fuel : Nat)
    (stream : List Char) (os : OS) (fsize : Int) (chunks : List chunk)
    (os1 : OS) (fsize1 : Int) (chunks1 : List chunk)
    (hinv : fsize = to_off_t (total_portion chunks))
    (hrun : open_loop fd base_dir fuel stream os fsize chunks = some (os1, fsize1, chunks1)) :
    fsize1 = to_off_t (total_portion chunks1) := by
  induction fuel generalizing stream os fsize chunks with
  | zero =>
    simp only [open_loop, Option.some.injEq, Prod.mk.injEq] at hrun
    rw [← hrun.2.1, ← hrun.2.2]
    exact hinv
  | succ k ih =>
    rw [open_loop] at hrun
    cases hget : fgets (PATH_MAX + 1) stream with
    | none =>
      simp only [hget, Option.some.injEq, Prod.mk.injEq] at hrun
      rw [← hrun.2.1, ← hrun.2.2]
      exact hinv
    | some r =>
      obtain ⟨stored, rest⟩ := r
      simp only [hget] at hrun
      cases hparse : parse_line stored with
      | none => simp [hparse] at hrun
      | some t =>
        obtain ⟨a, b, fpath⟩ := t
        simp only [hparse] at hrun
        rw [if_pos hfd] at hrun
        refine ih rest _ _ _ ?_ hrun
        rw [total_portion_snoc, hinv]
        exact to_off_t_accumulates _ _

theorem open_files_find_mem (fd : Int) (l : List concat_file) (e : concat_file)
    (h : open_files_find fd l = some e) : e ∈ l := by
  induction l with
  | nil => simp [open_files_find] at h
  | cons x rest ih =>
    by_cases hx : x.fd = fd
    · simp only [open_files_find, hx, if_true, Option.some.injEq] at h
      rw [← h]
      exact List.mem_cons_self _ _
    · simp only [open_files_find, hx, if_false] at h
      exact List.mem_cons_of_mem _ (ih h)

theorem total_portion_eq_sum (chunks : List chunk) :
    total_portion chunks = (((chunks.map (fun c => c.portion)).sum : Nat) : Int) := by
  induction chunks with
  | nil => simp [total_portion]
  | cons c rest ih =>
    rw [total_portion_cons, ih]
    simp

/-- C13, counterexample: the size-only probe (`fd = -1`) of the description
`0 5 a.bin`, `0 3 b.bin` returns a virtual file with `fsize = 8` and no chunk,
so `fsize` is not the sum of the portions of its chunk list; with `fd >= 0` a
portion field of 2^63 gives a chunk of portion 2^63 and, `fsize` being an
`off_t`, `fsize = -2^63`; and the line `9223372036854775808 5 a.bin` gives a
chunk whose `start_offset` is `-2^63`, not the number of the line. -/
theorem size_probe_has_no_chunks :
    (open_concat_file (data_dir_with "0 5 a.bin\n0 3 b.bin\n") (-1)
        "/data/idx.txt".toList).map (fun r => r.2) = some (some ⟨[], -1, 8, 1⟩) ∧
    (8 : Int) ≠ total_portion [] ∧
    (open_concat_file (data_dir_with "0 9223372036854775808 a.bin\n") 3
        "/data/idx.txt".toList).map (fun r => r.2)
      = some (some ⟨[⟨1, 0, 9223372036854775808⟩], 3, -9223372036854775808, 1⟩) ∧
    (-9223372036854775808 : Int) ≠ total_portion [⟨1, 0, 9223372036854775808⟩] ∧
    (open_concat_file (data_dir_with "9223372036854775808 5 a.bin\n") 3
        "/data/idx.txt".toList).map (fun r => r.2)
      = some (some ⟨[⟨1, -9223372036854775808, 5⟩], 3, 5, 1⟩) := by
  decide

/-- C13, amended: for a description whose lines all have the form
`<start_offset> <portion_length> <target_path>` and are shorter than
`PATH_MAX` characters, and whose portion fields sum to less than 2^63, the
virtual file that `open_concat_file` produces with a handle `fd >= 0` has
`fsize` equal to the sum of `portion` over its chunk list, the chunks being
in the order of the lines, chunk `i` carrying the portion length of line `i`
and, as `start_offset`, the `off_t` that the scan stores for the start offset
of line `i`; when the start offsets of the lines are below 2^63, chunk `i`
carries the start offset of line `i` itself.  The size-only probe (`fd = -1`)
produces a file with no chunk whose `fsize` is the sum of the portion fields.
For every description, a file produced with `fd >= 0` has `fsize` equal to
the sum of its portions reduced to an `off_t`.  `open_files_push_front`,
`open_files_find` and `open_files_erase` keep the equality for every
registered file (`read_concat_file` stores into no entry). -/
theorem fsize_matches_chunk_list (os : OS) (path : List Char)
    (lines : List IndexLine) (nl : Bool)
    (hwf : ∀ l ∈ lines, l.well_formed)
    (hsum : (portion_sum lines : Int) < 2 ^ 63)
    (hfile : os.content path = some (description_text lines nl))
    (open_files : List concat_file) (hreg : registry_consistent open_files) :
    (∀ fd : Int, 0 ≤ fd → os.fd_path fd = some path →
      ∃ os1 cf, open_concat_file os fd path = some (os1, some cf) ∧
        cf.fsize = total_portion cf.chunks ∧
        cf.chunks.map (fun c => (c.start_offset, c.portion))
          = lines.map (fun l => (scanned l.start_offset, decimal l.portion_length)) ∧
        ((∀ l ∈ lines, (decimal l.start_offset : Int) < 2 ^ 63) →
          cf.chunks.map (fun c => (c.start_offset, c.portion))
            = lines.map
                (fun l => ((decimal l.start_offset : Int), decimal l.portion_length)))) ∧
    (∃ os1 cf, open_concat_file os (-1) path = some (os1, some cf) ∧
      cf.chunks = [] ∧ cf.fsize = (portion_sum lines : Int)) ∧
    (∀ (os2 : OS) (p2 : List Char) (fd2 : Int) (os3 : OS) (cf : concat_file), 0 ≤ fd2 →
      open_concat_file os2 fd2 p2 = some (os3, some cf) →
      cf.fsize = to_off_t (total_portion cf.chunks)) ∧
    (∀ cf, cf.fsize = total_portion cf.chunks →
      registry_consistent (open_files_push_front cf open_files)) ∧
    (∀ h e, open_files_find h open_files = some e → e.fsize = total_portion e.chunks) ∧
    (∀ h, registry_consistent (open_files_erase h open_files).2 ∧
      ∀ e, (open_files_erase h open_files).1 = some e →
        e.fsize = total_portion e.chunks) := by
  refine ⟨?_, ?_, ?_, ?_, ?_, ?_⟩
  · intro fd hfd hopen
    obtain ⟨osa, chunksa, hrun, _, hch⟩ := open_loop_well_formed fd
      (dirname (path.take PATH_MAX)) lines nl hwf (description_text lines nl).length
      (os.dup fd).2 0 [] (le_refl _) (le_refl _) (by simpa using hsum)
    have hmap := hch hfd
    simp only [List.map_nil, List.nil_append] at hmap
    have hportions : chunksa.map (fun c => c.portion)
        = lines.map (fun l => decimal l.portion_length) := by
      have := congrArg (List.map Prod.snd) hmap
      simpa [List.map_map, Function.comp_def] using this
    refine ⟨osa.close (os.dup fd).1, ⟨chunksa, fd, 0 + (portion_sum lines : Int), 1⟩,
      ?_, ?_, hmap, ?_⟩
    · unfold open_concat_file open_stream
      rw [if_pos hfd]
      simp only [hopen, hfile, hrun]
    · simp only [zero_add]
      rw [total_portion_eq_sum, hportions]
      rfl
    · intro hstart
      simp only []
      rw [hmap]
      apply List.map_congr_left
      intro l hl
      rw [(scanned_of_small l.start_offset (hstart l hl)).1]
  · obtain ⟨osb, chunksb, hrun, hsame, _⟩ := open_loop_well_formed (-1)
      (dirname (path.take PATH_MAX)) lines nl hwf (description_text lines nl).length
      (os.open path).2 0 [] (le_refl _) (le_refl _) (by simpa using hsum)
    have hneg : ¬ ((-1 : Int) ≥ 0) := by decide
    refine ⟨osb.close (os.open path).1, ⟨chunksb, -1, 0 + (portion_sum lines : Int), 1⟩,
      ?_, (hsame (by decide)).2, by simp⟩
    unfold open_concat_file open_stream
    rw [if_neg hneg]
    simp only [hfile, hrun]
  · intro os2 p2 fd2 os3 cf hfd2 hret
    unfold open_concat_file at hret
    cases hst : open_stream os2 fd2 p2 with
    | none => simp [hst] at hret
    | some r =>
      obtain ⟨sfd, text, osx⟩ := r
      simp only [hst] at hret
      cases hrun : open_loop fd2 (dirname (p2.take PATH_MAX)) text.length text osx 0 [] with
      | none => simp [hrun] at hret
      | some q =>
        obtain ⟨osy, fsize1, chunks1⟩ := q
        simp only [hrun, Option.some.injEq, Prod.mk.injEq] at hret
        have hinv := open_loop_fsize_wraps fd2 _ hfd2 text.length text osx 0 [] osy fsize1
          chunks1 (by decide) hrun
        rw [← hret.2]
        exact hinv
  · intro cf hcf e he
    rcases List.mem_cons.mp he with rfl | hin
    · exact hcf
    · exact hreg e hin
  · intro h e hfind
    exact hreg e (open_files_find_mem h open_files e hfind)
  · intro h
    rw [open_files_erase_eq]
    refine ⟨fun e he => hreg e (List.mem_of_mem_eraseP he), fun e hfind => ?_⟩
    exact hreg e (open_files_find_mem h open_files e hfind)

/-- Witness for C13: the description `0 5 a.bin`, `0 3 b.bin` opened through
descriptor 3, and a registry that holds the file `HELLO!!!`; the chunks carry
the start offsets 0, 0 and the portions 5, 3 of the lines. -/
theorem fsize_matches_chunk_list_witness :
    (∃ os1 cf, open_concat_file data_dir_opened 3 "/data/idx.txt".toList
        = some (os1, some cf) ∧ cf.fsize = total_portion cf.chunks ∧
      cf.chunks.map (fun c => (c.start_offset, c.portion))
        = two_lines.map
            (fun l => ((decimal l.start_offset : Int), decimal l.portion_length))) ∧
    two_lines.map (fun l => ((decimal l.start_offset : Int), decimal l.portion_length))
      = [(0, 5), (0, 3)] ∧
    registry_consistent (open_files_push_front ⟨[⟨9, 0, 2⟩], 4, 2, 1⟩ [hello_file]) ∧
    registry_consistent (open_files_erase 7 [hello_file]).2 := by
  have h := fsize_matches_chunk_list data_dir_opened "/data/idx.txt".toList two_lines false
    (by decide) (by decide) (by decide) [hello_file] (by decide)
  obtain ⟨hopen, _, _, hpush, _, herase⟩ := h
  obtain ⟨os1, cf, h1, h2, _, h4⟩ := hopen 3 (by decide) (by decide)
  exact ⟨⟨os1, cf, h1, h2, h4 (by decide)⟩, by decide,
    hpush ⟨[⟨9, 0, 2⟩], 4, 2, 1⟩ (by decide), (herase 7).1⟩

/-! ## Descriptors: opening and closing -/

theorem fd_path_eq_none_iff (os : OS) (fd : Int) :
    os.fd_path fd = none ↔ fd ∉ os.open_fds := by
  unfold OS.fd_path OS.open_fds
  rw [Option.map_eq_none', List.find?_eq_none]
  constructor
  · intro h hm
    obtain ⟨e, he, hfd⟩ := List.mem_map.mp hm
    exact h e he (by simpa using hfd)
  · intro h e he
    have : e.1 ≠ fd := fun hfd => h (List.mem_map.mpr ⟨e, he, hfd⟩)
    simpa using this

theorem fd_path_cons_self (files : List (List Char × List Char)) (fd : Int) (p : List Char)
    (tab : List (Int × List Char)) :
    OS.fd_path ⟨files, (fd, p) :: tab⟩ fd = some p := by
  simp [OS.fd_path]

theorem fresh_candidates (n : Nat) :
    (do let a ← List.range n; pure (a : Int) : List Int)
      = (List.range n).map (fun a : Nat => (a : Int)) := by
  simp [List.map_eq_flatMap]

/-- The descriptor that `open` and `dup` choose is not open and not
negative. -/
theorem fresh_fd_spec (os : OS) : os.fresh_fd ∉ os.open_fds ∧ 0 ≤ os.fresh_fd := by
  unfold OS.fresh_fd
  rw [fresh_candidates]
  cases hfind : ((List.range (os.fdtab.length + 1)).map (fun a : Nat => (a : Int))).find?
      (fun n => decide (os.fd_path n = none)) with
  | some k =>
    simp only []
    have hk := List.find?_some hfind
    have hnone : os.fd_path k = none := by simpa using hk
    have hmem := List.mem_of_find?_eq_some hfind
    obtain ⟨n, _, rfl⟩ := List.mem_map.mp hmem
    exact ⟨(fd_path_eq_none_iff os n).mp hnone, Int.ofNat_nonneg n⟩
  | none =>
    exfalso
    rw [List.find?_eq_none] at hfind
    have hsub : (List.range (os.fdtab.length + 1)).map (fun n : Nat => (n : Int))
        ⊆ os.open_fds := by
      intro k hk
      have := hfind k hk
      have hne : os.fd_path k ≠ none := by simpa using this
      by_contra hk2
      exact hne ((fd_path_eq_none_iff os k).mpr hk2)
    have hnodup : ((List.range (os.fdtab.length + 1)).map (fun n : Nat => (n : Int))).Nodup :=
      (List.nodup_range _).map (fun a b h => by exact_mod_cast h)
    have hle := (hnodup.subperm hsub).length_le
    simp [OS.open_fds] at hle

theorem OS.open_cases (os : OS) (p : List Char) :
    (os.open p = (-1, os)) ∨
    (os.open p = (os.fresh_fd, ⟨os.files, (os.fresh_fd, p) :: os.fdtab⟩)) := by
  unfold OS.open
  cases os.content p with
  | none => exact Or.inl rfl
  | some t => exact Or.inr rfl

theorem close_fdtab (os : OS) (fd : Int) :
    (os.close fd).fdtab = os.fdtab.filter (fun e => decide (e.1 ≠ fd)) ∧
    (os.close fd).files = os.files := ⟨rfl, rfl⟩

theorem foldl_close (fds : List Int) (os : OS) :
    (fds.foldl OS.close os).fdtab = os.fdtab.filter (fun e => decide (e.1 ∉ fds)) ∧
    (fds.foldl OS.close os).files = os.files := by
  induction fds generalizing os with
  | nil => simp
  | cons f rest ih =>
    rw [List.foldl_cons]
    obtain ⟨h1, h2⟩ := ih (os.close f)
    rw [h1, h2]
    refine ⟨?_, rfl⟩
    rw [(close_fdtab os f).1, List.filter_filter]
    apply List.filter_congr
    intro e _
    simp only [List.mem_cons, not_or, ne_eq, Bool.decide_and, Bool.and_comm]

theorem close_concat_file_eq (os : OS) (x : Option concat_file) :
    close_concat_file os x = (close_calls x).foldl OS.close os := by
  cases x with
  | none => rfl
  | some cf =>
    simp only [close_concat_file, close_calls, List.foldl_append, List.foldl_map,
      List.foldl_cons, List.foldl_nil]

theorem open_loop_descriptors_done (os : OS) (fsize : Int) (chunks : List chunk)
    (o : OS) (f : Int) (cs : List chunk)
    (h : (some (os, fsize, chunks) : Option (OS × Int × List chunk)) = some (o, f, cs)) :
    ∃ (added : List (Int × List Char)) (new : List chunk),
      cs = chunks ++ new ∧ o.files = os.files ∧ o.fdtab = added ++ os.fdtab ∧
      (∀ k ∈ added.map Prod.fst, k ∈ new.map (fun c => c.fd)) ∧
      (∀ c ∈ new, c.fd = -1 ∨ c.fd ∈ added.map Prod.fst) ∧
      (∀ k ∈ added.map Prod.fst, k ∉ os.open_fds ∧ 0 ≤ k) ∧
      ((new.map (fun c => c.fd)).filter (fun k => decide (0 ≤ k))).Nodup := by
  simp only [Option.some.injEq, Prod.mk.injEq] at h
  obtain ⟨h1, _, h3⟩ := h
  subst h1
  subst h3
  exact ⟨[], [], by simp, rfl, by simp, by simp, by simp, by simp, by simp⟩

/-- What the loop of `open_concat_file` does to the descriptor table: the
files are untouched, the table grows at its head by the entries `added`, the
chunks `new` are appended, the descriptors of `added` are those of the new
chunks that are not `-1`, none of them was open before, and no two new chunks
share a descriptor other than `-1`. -/
theorem open_loop_descriptors (fd : Int) (base_dir : List Char) (fuel : Nat)
    (stream : List Char) (os : OS) (fsize : Int) (chunks : List chunk)
    (os1 : OS) (fsize1 : Int) (chunks1 : List chunk)
    (hrun : open_loop fd base_dir fuel stream os fsize chunks = some (os1, fsize1, chunks1)) :
    ∃ (added : List (Int × List Char)) (new : List chunk),
      chunks1 = chunks ++ new ∧ os1.files = os.files ∧ os1.fdtab = added ++ os.fdtab ∧
      (∀ k ∈ added.map Prod.fst, k ∈ new.map (fun c => c.fd)) ∧
      (∀ c ∈ new, c.fd = -1 ∨ c.fd ∈ added.map Prod.fst) ∧
      (∀ k ∈ added.map Prod.fst, k ∉ os.open_fds ∧ 0 ≤ k) ∧
      ((new.map (fun c => c.fd)).filter (fun k => decide (0 ≤ k))).Nodup := by
  induction fuel generalizing stream os fsize chunks with
  | zero =>
    rw [open_loop] at hrun
    exact open_loop_descriptors_done os fsize chunks os1 fsize1 chunks1 hrun
  | succ n ih =>
    rw [open_loop] at hrun
    cases hget : fgets (PATH_MAX + 1) stream with
    | none =>
      simp only [hget] at hrun
      exact open_loop_descriptors_done os fsize chunks os1 fsize1 chunks1 hrun
    | some r =>
      obtain ⟨stored, rest⟩ := r
      simp only [hget] at hrun
      cases hparse : parse_line stored with
      | none => simp [hparse] at hrun
      | some t =>
        obtain ⟨a, b, fpath⟩ := t
        simp only [hparse] at hrun
        by_cases hfd : fd ≥ 0
        · rw [if_pos hfd] at hrun
          rcases OS.open_cases os (chunk_path base_dir fpath) with hop | hop
          · rw [hop] at hrun
            simp only [] at hrun
            obtain ⟨added, new, hc, hf, ht, hC, hD, hE, hF⟩ := ih rest os _ _ hrun
            refine ⟨added, ⟨-1, a, to_size_t b⟩ :: new, ?_, hf, ht, ?_, ?_, hE, ?_⟩
            · rw [hc, List.append_assoc]
              rfl
            · intro k hk
              exact List.mem_cons_of_mem _ (hC k hk)
            · intro c hcm
              rcases List.mem_cons.mp hcm with rfl | hin
              · exact Or.inl rfl
              · exact hD c hin
            · rw [List.map_cons, List.filter_cons]
              simpa using hF
          · rw [hop] at hrun
            simp only [] at hrun
            obtain ⟨hfresh, hnonneg⟩ := fresh_fd_spec os
            obtain ⟨added, new, hc, hf, ht, hC, hD, hE, hF⟩ := ih rest _ _ _ hrun
            have hEf : ∀ k ∈ added.map Prod.fst, k ≠ os.fresh_fd ∧ k ∉ os.open_fds ∧ 0 ≤ k := by
              intro k hk
              obtain ⟨h1, h2⟩ := hE k hk
              have h3 : k ∉ os.fresh_fd :: os.open_fds := by
                simpa [OS.open_fds] using h1
              exact ⟨fun e => h3 (e ▸ List.mem_cons_self _ _),
                fun hm => h3 (List.mem_cons_of_mem _ hm), h2⟩
            refine ⟨added ++ [(os.fresh_fd, chunk_path base_dir fpath)],
              ⟨os.fresh_fd, a, to_size_t b⟩ :: new, ?_, hf, ?_, ?_, ?_, ?_, ?_⟩
            · rw [hc, List.append_assoc]
              rfl
            · rw [ht]
              simp
            · intro k hk
              rw [List.map_append, List.mem_append] at hk
              rcases hk with hk | hk
              · exact List.mem_cons_of_mem _ (hC k hk)
              · have : k = os.fresh_fd := by simpa using hk
                rw [this]
                exact List.mem_cons_self _ _
            · intro c hcm
              rw [List.map_append, List.mem_append]
              rcases List.mem_cons.mp hcm with rfl | hin
              · right
                right
                simp
              · rcases hD c hin with hneg | hmem
                · exact Or.inl hneg
                · exact Or.inr (Or.inl hmem)
            · intro k hk
              rw [List.map_append, List.mem_append] at hk
              rcases hk with hk | hk
              · exact (hEf k hk).2
              · have : k = os.fresh_fd := by simpa using hk
                rw [this]
                exact ⟨hfresh, hnonneg⟩
            · rw [List.map_cons, List.filter_cons]
              simp only [hnonneg, decide_True, if_true]
              rw [List.nodup_cons]
              refine ⟨?_, hF⟩
              intro hm
              have hm1 := (List.mem_filter.mp hm).1
              obtain ⟨c, hcn, hcf⟩ := List.mem_map.mp hm1
              rcases hD c hcn with hneg | hmem
              · rw [hcf] at hneg
                omega
              · rw [hcf] at hmem
                exact (hEf _ hmem).1 rfl
        · rw [if_neg hfd] at hrun
          exact ih rest os _ _ hrun

theorem stored_lines_eof (fuel : Nat) : stored_lines fuel [] = [] := by
  cases fuel <;> simp [stored_lines, fgets]

/-- Every line that `fgets` stores from a well-formed description parses. -/
theorem stored_lines_of_well_formed (lines : List IndexLine) (nl : Bool)
    (hwf : ∀ l ∈ lines, l.well_formed) (fuel : Nat) :
    ∀ s ∈ stored_lines fuel (description_text lines nl), parse_line s ≠ none := by
  induction lines generalizing fuel with
  | nil =>
    have : description_text [] nl = [] := by cases nl <;> rfl
    rw [this, stored_lines_eof]
    intro s hs
    cases hs
  | cons l ls ih =>
    have hl : l.well_formed := hwf l (List.mem_cons_self _ _)
    have hls : ∀ x ∈ ls, x.well_formed := fun x hx => hwf x (List.mem_cons_of_mem _ hx)
    cases fuel with
    | zero =>
      intro s hs
      simp [stored_lines] at hs
    | succ k =>
      by_cases hlast : ls = [] ∧ nl = false
      · obtain ⟨hnil, hnl⟩ := hlast
        subst hnil
        subst hnl
        have hdesc : description_text [l] false = l.text := rfl
        obtain ⟨hget, hparse⟩ := unterminated_line_parses l hl
        rw [hdesc, stored_lines]
        simp only [hget, stored_lines_eof]
        intro s hs
        rw [List.mem_singleton] at hs
        rw [hs, hparse]
        exact Option.some_ne_none _
      · have hcase : ls ≠ [] ∨ nl = true := by
          by_cases hnil : ls = []
          · right
            cases nl with
            | false => exact absurd ⟨hnil, rfl⟩ hlast
            | true => rfl
          · exact Or.inl hnil
        obtain ⟨hget, hparse⟩ := terminated_line_parses l hl (description_text ls nl)
        rw [description_text_cons l ls nl hcase, stored_lines]
        simp only [hget]
        intro s hs
        rcases List.mem_cons.mp hs with rfl | hin
        · rw [hparse]
          exact Option.some_ne_none _
        · exact ih hls k s hin

/-- On a well-formed description the loop of `open_concat_file` ends without
`abort()`. -/
theorem open_loop_returns (fd : Int) (base_dir : List Char) (lines : List IndexLine)
    (nl : Bool) (hwf : ∀ l ∈ lines, l.well_formed) (fuel : Nat) (os : OS) (fsize : Int)
    (chunks : List chunk) :
    ∃ os1 fsize1 chunks1,
      open_loop fd base_dir fuel (description_text lines nl) os fsize chunks
        = some (os1, fsize1, chunks1) := by
  cases hrun : open_loop fd base_dir fuel (description_text lines nl) os fsize chunks with
  | some r =>
    obtain ⟨os1, fsize1, chunks1⟩ := r
    exact ⟨os1, fsize1, chunks1, rfl⟩
  | none =>
    exfalso
    obtain ⟨s, hs, hbad⟩ := (open_loop_aborts_iff fd base_dir fuel _ os fsize chunks).mp hrun
    exact stored_lines_of_well_formed lines nl hwf fuel s hs hbad

/-! ## Open followed by release -/

theorem filter_removes_head (p : Int × List Char → Bool) (gone kept : List (Int × List Char))
    (hgone : ∀ e ∈ gone, p e = false) (hkept : ∀ e ∈ kept, p e = true) :
    (gone ++ kept).filter p = kept := by
  rw [List.filter_append, List.filter_eq_nil_iff.mpr (fun e he => by simp [hgone e he]),
    List.filter_eq_self.mpr hkept, List.nil_append]

theorem count_eq_one_of_nonneg (fds : List Int) (k : Int) (hk : 0 ≤ k) (hmem : k ∈ fds)
    (hnodup : (fds.filter (fun x => decide (0 ≤ x))).Nodup) : fds.count k = 1 := by
  have hin : k ∈ fds.filter (fun x => decide (0 ≤ x)) :=
    List.mem_filter.mpr ⟨hmem, by simpa using hk⟩
  have h1 := List.count_eq_one_of_mem hnodup hin
  rw [List.count_filter (by simpa using hk)] at h1
  exact h1

theorem OS.eq_of_fields (a b : OS) (hf : a.files = b.files) (ht : a.fdtab = b.fdtab) :
    a = b := by
  cases a
  cases b
  simp only [OS.mk.injEq]
  exact ⟨hf, ht⟩

theorem open_files_erase_head (cf : concat_file) (rest : List concat_file) :
    open_files_erase cf.fd (cf :: rest) = (some cf, rest) := by
  simp [open_files_erase]

/-- The state after `concatfs_open` on a well-formed description: the handle is
the descriptor `open` chose, the descriptor table holds the handle and, above
it, the entries `added` for the chunk descriptors (the duplicate under the
stream is closed again), and the new entry is at the head of the registry. -/
theorem concatfs_open_result (src_dir path : List Char) (st : State)
    (lines : List IndexLine) (nl : Bool) (hwf : ∀ l ∈ lines, l.well_formed)
    (hfile : st.os.content ((src_dir ++ '/' :: path).take (PATH_MAX - 1))
      = some (description_text lines nl)) :
    ∃ (added : List (Int × List Char)) (chunks1 : List chunk) (fsize : Int),
      concatfs_open src_dir st path
        = some (⟨⟨st.os.files, added ++
              (st.os.fresh_fd, (src_dir ++ '/' :: path).take (PATH_MAX - 1)) :: st.os.fdtab⟩,
            ⟨chunks1, st.os.fresh_fd, fsize, 1⟩ :: st.open_files⟩, 0, some st.os.fresh_fd) ∧
      (∀ k ∈ added.map Prod.fst, k ∈ chunks1.map (fun c => c.fd)) ∧
      (∀ c ∈ chunks1, c.fd = -1 ∨ c.fd ∈ added.map Prod.fst) ∧
      (∀ k ∈ added.map Prod.fst, k ≠ st.os.fresh_fd ∧ k ∉ st.os.open_fds ∧ 0 ≤ k) ∧
      ((chunks1.map (fun c => c.fd)).filter (fun k => decide (0 ≤ k))).Nodup := by
  obtain ⟨hfresh, hnonneg⟩ := fresh_fd_spec st.os
  generalize hfp : (src_dir ++ '/' :: path).take (PATH_MAX - 1) = fpath at hfile ⊢
  generalize hfh : st.os.fresh_fd = fh at hfresh hnonneg ⊢
  have hopen : st.os.open fpath = (fh, ⟨st.os.files, (fh, fpath) :: st.os.fdtab⟩) := by
    unfold OS.open
    rw [hfile, hfh]
  have hnotneg : ¬ (fh < 0) := by omega
  have hge : fh ≥ 0 := hnonneg
  -- the stream: a duplicate of the handle
  obtain ⟨hsfresh, hsnonneg⟩ := fresh_fd_spec ⟨st.os.files, (fh, fpath) :: st.os.fdtab⟩
  generalize hsf : OS.fresh_fd ⟨st.os.files, (fh, fpath) :: st.os.fdtab⟩ = sfd
    at hsfresh hsnonneg
  have hdup : OS.dup ⟨st.os.files, (fh, fpath) :: st.os.fdtab⟩ fh
      = (sfd, ⟨st.os.files, (sfd, fpath) :: (fh, fpath) :: st.os.fdtab⟩) := by
    unfold OS.dup
    rw [fd_path_cons_self, hsf]
  have hcontent : OS.content ⟨st.os.files, (fh, fpath) :: st.os.fdtab⟩ fpath
      = some (description_text lines nl) := hfile
  have hstream : open_stream ⟨st.os.files, (fh, fpath) :: st.os.fdtab⟩ fh fpath
      = some (sfd, description_text lines nl,
          ⟨st.os.files, (sfd, fpath) :: (fh, fpath) :: st.os.fdtab⟩) := by
    unfold open_stream
    rw [if_pos hge, fd_path_cons_self]
    simp only [hcontent, hdup]
  obtain ⟨os3, fsize, chunks1, hrun⟩ := open_loop_returns fh (dirname (fpath.take PATH_MAX))
    lines nl hwf (description_text lines nl).length
    ⟨st.os.files, (sfd, fpath) :: (fh, fpath) :: st.os.fdtab⟩ 0 []
  obtain ⟨added, new, hc, hf, ht, hC, hD, hE, hF⟩ := open_loop_descriptors _ _ _ _ _ _ _ _ _ _ hrun
  rw [List.nil_append] at hc
  subst hc
  have hkeys : ∀ k ∈ added.map Prod.fst, k ≠ sfd ∧ k ≠ fh ∧ k ∉ st.os.open_fds ∧ 0 ≤ k := by
    intro k hk
    obtain ⟨h1, h2⟩ := hE k hk
    have h3 : k ∉ sfd :: fh :: st.os.open_fds := by
      simpa [OS.open_fds] using h1
    refine ⟨fun e => h3 (e ▸ List.mem_cons_self _ _), fun e => h3 ?_, fun hm => h3 ?_, h2⟩
    · rw [e]
      exact List.mem_cons_of_mem _ (List.mem_cons_self _ _)
    · exact List.mem_cons_of_mem _ (List.mem_cons_of_mem _ hm)
  have hsne : fh ≠ sfd := by
    intro e
    apply hsfresh
    rw [← e]
    simp [OS.open_fds]
  have hstab : ∀ e ∈ st.os.fdtab, e.1 ≠ sfd := by
    intro e he hes
    apply hsfresh
    rw [← hes]
    simp only [OS.open_fds, List.map_cons, List.mem_cons]
    exact Or.inr (List.mem_map_of_mem Prod.fst he)
  have hclosed : os3.close sfd = ⟨st.os.files, added ++ (fh, fpath) :: st.os.fdtab⟩ := by
    apply OS.eq_of_fields
    · rw [(close_fdtab os3 sfd).2, hf]
    · rw [(close_fdtab os3 sfd).1, ht, List.filter_append, List.filter_cons]
      have h1 : added.filter (fun e => decide (e.1 ≠ sfd)) = added := by
        apply List.filter_eq_self.mpr
        intro e he
        have := (hkeys e.1 (List.mem_map_of_mem Prod.fst he)).1
        simpa using this
      have h2 : ((fh, fpath) :: st.os.fdtab).filter (fun e => decide (e.1 ≠ sfd))
          = (fh, fpath) :: st.os.fdtab := by
        apply List.filter_eq_self.mpr
        intro e he
        rcases List.mem_cons.mp he with rfl | hin
        · simpa using hsne
        · simpa using hstab e hin
      rw [h1, h2]
      simp
  have hfile2 : open_concat_file ⟨st.os.files, (fh, fpath) :: st.os.fdtab⟩ fh fpath
      = some (⟨st.os.files, added ++ (fh, fpath) :: st.os.fdtab⟩,
          some ⟨chunks1, fh, fsize, 1⟩) := by
    unfold open_concat_file
    rw [hstream]
    simp only [hrun, hclosed]
  refine ⟨added, chunks1, fsize, ?_, hC, hD, fun k hk => (hkeys k hk).2, hF⟩
  unfold concatfs_open
  simp only [hfp, hopen, hnotneg, if_false, hfile2]
  rfl

/-- C14: on a state that holds the descriptor table and the registry, in
which descriptors are non-negative and every registered handle is an open
descriptor: for a well-formed description, `concatfs_open` returns a handle
and registers an entry under it; every chunk descriptor the open created
(it was not open before and is open afterwards) is handed to `close` exactly
once by the `concatfs_release` on that handle, which removes the entry and
leaves the state as it was before the open, no descriptor being left over;
a second `concatfs_release` on the handle finds no entry, closes nothing and
leaves the state unchanged. -/
theorem open_then_release_closes_every_descriptor (src_dir path : List Char) (st : State)
    (lines : List IndexLine) (nl : Bool) (hwf : ∀ l ∈ lines, l.well_formed)
    (hfile : st.os.content ((src_dir ++ '/' :: path).take (PATH_MAX - 1))
      = some (description_text lines nl))
    (hfds : ∀ e ∈ st.os.fdtab, 0 ≤ e.1)
    (hreg : ∀ e ∈ st.open_files, st.os.fd_path e.fd ≠ none) :
    ∃ st1 fh cf,
      concatfs_open src_dir st path = some (st1, 0, some fh) ∧
      st1.open_files = cf :: st.open_files ∧ cf.fd = fh ∧
      (open_files_erase fh st1.open_files).1 = some cf ∧
      close_concat_file st1.os (some cf) = (close_calls (some cf)).foldl OS.close st1.os ∧
      (∀ c ∈ cf.chunks, 0 ≤ c.fd →
        st.os.fd_path c.fd = none ∧ st1.os.fd_path c.fd ≠ none ∧
        (close_calls (some cf)).count c.fd = 1) ∧
      concatfs_release st1 fh = (st, 0) ∧
      (open_files_erase fh st.open_files).1 = none ∧
      close_calls (open_files_erase fh st.open_files).1 = [] ∧
      concatfs_release st fh = (st, 0) := by
  obtain ⟨added, chunks1, fsize, hopen, hC, hD, hE, hF⟩ :=
    concatfs_open_result src_dir path st lines nl hwf hfile
  obtain ⟨hfresh, hnonneg⟩ := fresh_fd_spec st.os
  generalize hfp : (src_dir ++ '/' :: path).take (PATH_MAX - 1) = fpath at hopen
  generalize hfh : st.os.fresh_fd = fh at hopen hE hfresh hnonneg
  have hkept : ∀ e ∈ st.os.fdtab,
      e.1 ∉ chunks1.map (fun c => c.fd) ++ [fh] := by
    intro e he hm
    have hopenfd : e.1 ∈ st.os.open_fds := List.mem_map_of_mem Prod.fst he
    rcases List.mem_append.mp hm with h1 | h1
    · obtain ⟨c, hc, hcf⟩ := List.mem_map.mp h1
      rcases hD c hc with hneg | hmem
      · have := hfds e he
        rw [← hcf, hneg] at this
        omega
      · rw [hcf] at hmem
        exact (hE _ hmem).2.1 hopenfd
    · rw [List.mem_singleton] at h1
      rw [h1] at hopenfd
      exact hfresh hopenfd
  have hos : close_concat_file ⟨st.os.files, added ++ (fh, fpath) :: st.os.fdtab⟩
      (some ⟨chunks1, fh, fsize, 1⟩) = st.os := by
    rw [close_concat_file_eq]
    apply OS.eq_of_fields
    · exact (foldl_close _ _).2
    · rw [(foldl_close _ _).1]
      have hshape : added ++ (fh, fpath) :: st.os.fdtab
          = (added ++ [(fh, fpath)]) ++ st.os.fdtab := by simp
      simp only [close_calls]
      rw [hshape]
      apply filter_removes_head
      · intro e he
        rcases List.mem_append.mp he with h1 | h1
        · have := hC e.1 (List.mem_map_of_mem Prod.fst h1)
          simp only [decide_eq_false_iff_not, not_not]
          exact List.mem_append_left _ this
        · rw [List.mem_singleton] at h1
          rw [h1]
          simp
      · intro e he
        simpa using hkept e he
  have hrel1 : concatfs_release
      ⟨⟨st.os.files, added ++ (fh, fpath) :: st.os.fdtab⟩,
        ⟨chunks1, fh, fsize, 1⟩ :: st.open_files⟩ fh = (st, 0) := by
    unfold concatfs_release
    have he := open_files_erase_head ⟨chunks1, fh, fsize, 1⟩ st.open_files
    simp only [] at he
    simp only [he, hos]
  have habsent : ∀ e ∈ st.open_files, e.fd ≠ fh := by
    intro e he hefd
    have h1 := hreg e he
    rw [hefd] at h1
    exact h1 ((fd_path_eq_none_iff st.os fh).mpr hfresh)
  have herase2 : open_files_erase fh st.open_files = (none, st.open_files) := by
    rw [open_files_erase_eq, open_files_find_eq_none fh _ habsent, eraseP_absent fh _ habsent]
  refine ⟨_, fh, ⟨chunks1, fh, fsize, 1⟩, hopen, rfl, rfl, ?_, close_concat_file_eq _ _, ?_,
    hrel1, ?_, ?_, ?_⟩
  · have he := open_files_erase_head ⟨chunks1, fh, fsize, 1⟩ st.open_files
    simp only [] at he
    simp only [he]
  · intro c hc hpos
    have hmem : c.fd ∈ added.map Prod.fst := by
      rcases hD c hc with hneg | hmem
      · omega
      · exact hmem
    obtain ⟨hne, hnot, _⟩ := hE _ hmem
    refine ⟨(fd_path_eq_none_iff st.os c.fd).mpr hnot, ?_, ?_⟩
    · intro hnone
      have := (fd_path_eq_none_iff _ _).mp hnone
      apply this
      simp only [OS.open_fds, List.map_append, List.mem_append]
      exact Or.inl hmem
    · simp only [close_calls, List.count_append]
      have h1 := count_eq_one_of_nonneg (chunks1.map (fun c => c.fd)) c.fd hpos
        (List.mem_map_of_mem (fun c => c.fd) hc) hF
      have h2 : [fh].count c.fd = 0 := by
        apply List.count_eq_zero_of_not_mem
        simpa using hne
      rw [h1, h2]
  · rw [herase2]
  · rw [herase2]
    rfl
  · unfold concatfs_release
    rw [herase2]
    rfl

/-- Witness for C14: in `busy_state` the description of `/data` is opened and
released; the open returns handle 1 with the chunk descriptors 3 and 4, and
the release leaves `busy_state`. -/
theorem open_then_release_closes_every_descriptor_witness :
    (concatfs_open "/data".toList busy_state "/idx.txt".toList).map
        (fun r => (r.1.os.fdtab.map Prod.fst, r.1.open_files.map (fun e => e.fd), r.2))
      = some ([4, 3, 1, 0], [1, 0], 0, some 1) ∧
    ∃ st1 fh cf,
      concatfs_open "/data".toList busy_state "/idx.txt".toList = some (st1, 0, some fh) ∧
      st1.open_files = cf :: busy_state.open_files ∧
      concatfs_release st1 fh = (busy_state, 0) ∧
      concatfs_release busy_state fh = (busy_state, 0) := by
  refine ⟨by decide, ?_⟩
  obtain ⟨st1, fh, cf, h1, h2, _, _, _, _, h3, _, _, h4⟩ :=
    open_then_release_closes_every_descriptor "/data".toList "/idx.txt".toList busy_state
      two_lines true (by decide) (by decide) (by decide) (by decide)
  exact ⟨st1, fh, cf, h1, h2, h3, h4⟩

/-! ## Lines that do not fit the line buffer -/

theorem fgets_aux_full (t rest : List Char) (hnl : '\n' ∉ t) :
    fgets_aux t.length (t ++ rest) = (t, rest) := by
  induction t with
  | nil => simp [fgets_aux]
  | cons c t ih =>
    have hc : c ≠ '\n' := fun e => hnl (by simp [e])
    have ht : '\n' ∉ t := fun h => hnl (List.mem_cons_of_mem _ h)
    simp [fgets_aux, hc, ih ht]

/-- A line without newline that fills the buffer is stored alone: what
follows it in the stream, its own terminator included, is left for the next
call of `fgets`. -/
theorem fgets_full_buffer (t rest : List Char) (hnl : '\n' ∉ t) (hlen : t.length = PATH_MAX)
    (hne : t ≠ []) : fgets (PATH_MAX + 1) (t ++ rest) = some (t, rest) := by
  have hroom : PATH_MAX + 1 - 1 = t.length := by
    rw [hlen]
    rfl
  rw [fgets_of_ne_nil _ _ (List.append_ne_nil_of_left_ne_nil hne _), hroom,
    fgets_aux_full t rest hnl]

theorem described_by_content (text : List Char) :
    (described_by text).content "/data/idx.txt".toList = some text := by
  have h : squeeze_slashes "/data/idx.txt".toList = squeeze_slashes "/data/idx.txt".toList :=
    rfl
  simp [OS.content, described_by]

theorem described_by_fd_path (text : List Char) :
    (described_by text).fd_path 3 = some "/data/idx.txt".toList := by
  simp [OS.fd_path, described_by]

theorem not_mem_replicate_t (n : Nat) (c : Char) (hc : c ≠ 't') :
    c ∉ List.replicate n 't' := by
  intro h
  exact hc (List.eq_of_mem_replicate h)

theorem long_line_text_spec :
    '\n' ∉ long_line.text ∧ long_line.text.length = PATH_MAX ∧ long_line.text ≠ [] ∧
    parse_line long_line.text = some (0, 5, List.replicate 4091 't') := by
  have htext : long_line.text = ['0'] ++ ' ' :: (['5'] ++ ' ' :: List.replicate 4092 't') := rfl
  refine ⟨?_, ?_, ?_, ?_⟩
  · rw [htext]
    intro h
    rcases List.mem_append.mp h with h1 | h1
    · revert h1; decide
    · rcases List.mem_cons.mp h1 with h2 | h2
      · revert h2; decide
      · rcases List.mem_append.mp h2 with h3 | h3
        · revert h3; decide
        · rcases List.mem_cons.mp h3 with h4 | h4
          · revert h4; decide
          · exact not_mem_replicate_t _ _ (by decide) h4
  · rw [htext]
    simp only [List.length_append, List.length_cons, List.length_replicate, List.length_nil]
    rfl
  · rw [htext]
    exact List.append_ne_nil_of_left_ne_nil (by decide) _
  · have hsplit : List.replicate 4092 't' = List.replicate 4091 't' ++ ['t'] :=
      List.replicate_succ' 4091 't'
    have hs0 : scanned ['0'] = 0 := by decide
    have hs5 : scanned ['5'] = 5 := by decide
    rw [htext, hsplit, ← hs0, ← hs5]
    exact parse_line_fields ['0'] ['5'] (List.replicate 4091 't') 't' (by decide) (by decide)
      (by decide) (by decide) (not_mem_replicate_t _ _ (by decide)) (by decide)

theorem long_line_with_blanks_spec :
    ∃ head : List Char,
      long_line_with_blanks.text ++ ['\n'] = head ++ ['1', ' ', '2', ' ', '\n'] ∧
      '\n' ∉ head ∧ head.length = PATH_MAX ∧ head ≠ [] ∧
      parse_line head = some (0, 5, List.replicate 4090 't') := by
  refine ⟨['0', '0'] ++ ' ' :: (['5'] ++ ' ' :: List.replicate 4091 't'), ?_, ?_, ?_, ?_, ?_⟩
  · simp only [long_line_with_blanks, IndexLine.text, List.append_assoc, List.cons_append,
      List.nil_append]
  · intro h
    rcases List.mem_append.mp h with h1 | h1
    · revert h1; decide
    · rcases List.mem_cons.mp h1 with h2 | h2
      · revert h2; decide
      · rcases List.mem_append.mp h2 with h3 | h3
        · revert h3; decide
        · rcases List.mem_cons.mp h3 with h4 | h4
          · revert h4; decide
          · exact not_mem_replicate_t _ _ (by decide) h4
  · simp only [List.length_append, List.length_cons, List.length_replicate, List.length_nil]
    rfl
  · exact List.append_ne_nil_of_left_ne_nil (by decide) _
  · have hsplit : List.replicate 4091 't' = List.replicate 4090 't' ++ ['t'] :=
      List.replicate_succ' 4090 't'
    have hs0 : scanned ['0', '0'] = 0 := by decide
    have hs5 : scanned ['5'] = 5 := by decide
    rw [hsplit, ← hs0, ← hs5]
    exact parse_line_fields ['0', '0'] ['5'] (List.replicate 4090 't') 't' (by decide)
      (by decide) (by decide) (by decide) (not_mem_replicate_t _ _ (by decide)) (by decide)

/-- A line that fills the buffer leaves its newline to the next `fgets`; that
call stores the newline alone, which does not parse, and the loop reaches
`abort()`. -/
theorem full_buffer_then_newline_aborts (t : List Char) (hnl : '\n' ∉ t)
    (hlen : t.length = PATH_MAX) (hne : t ≠ []) (fd : Int) (base_dir : List Char)
    (fuel : Nat) (hfuel : 2 ≤ fuel) (os : OS) (fsize : Int) (chunks : List chunk) :
    open_loop fd base_dir fuel (t ++ ['\n']) os fsize chunks = none := by
  obtain ⟨n, rfl⟩ : ∃ n, fuel = n + 2 := ⟨fuel - 2, by omega⟩
  have hget2 : fgets (PATH_MAX + 1) ['\n'] = some (['\n'], []) := by decide
  have hbad : parse_line ['\n'] = none := by decide
  rw [open_loop_aborts_iff]
  refine ⟨['\n'], ?_, hbad⟩
  rw [stored_lines]
  simp only [fgets_full_buffer t ['\n'] hnl hlen hne]
  rw [stored_lines]
  simp only [hget2]
  exact List.mem_cons_of_mem _ (List.mem_cons_self _ _)

/-- C3, counterexample: two descriptions of one line of the form
`<start_offset> <portion_length> <target_path>` with portion 5.  The line
`0 5 ttt...t` of 4096 characters fills the line buffer: its newline is read
as a line of its own and `abort()` is reached in both modes, so no `fsize` is
produced.  Of the line `00 5 ttt...t1 2 ` the first 4096 characters are read
as portion 5 and the rest, `1 2 `, as a second line of portion 2: the size
probe returns `fsize = 7`, not 5. -/
theorem line_longer_than_buffer_is_not_summed :
    portion_sum [long_line] = 5 ∧ long_line.text.length = 4096 ∧
    open_concat_file (described_by (description_text [long_line] true)) 3
      "/data/idx.txt".toList = none ∧
    open_concat_file (described_by (description_text [long_line] true)) (-1)
      "/data/idx.txt".toList = none ∧
    get_concat_file_size (described_by (description_text [long_line] true))
      "/data/idx.txt".toList = none ∧
    portion_sum [long_line_with_blanks] = 5 ∧
    (open_concat_file (described_by (description_text [long_line_with_blanks] true)) (-1)
      "/data/idx.txt".toList).map (fun r => r.2) = some (some ⟨[], -1, 7, 1⟩) ∧
    (get_concat_file_size (described_by (description_text [long_line_with_blanks] true))
      "/data/idx.txt".toList).map (fun r => r.2) = some 7 := by
  obtain ⟨hnl, hlen, hne, _⟩ := long_line_text_spec
  have hdesc : description_text [long_line] true = long_line.text ++ ['\n'] := rfl
  have hneg : ¬ ((-1 : Int) ≥ 0) := by decide
  have hpos : (3 : Int) ≥ 0 := by decide
  have hfuel : 2 ≤ (long_line.text ++ ['\n']).length := by
    rw [List.length_append, hlen]
    decide
  have habort : ∀ (fd : Int) (base : List Char) (os : OS),
      open_loop fd base (long_line.text ++ ['\n']).length (long_line.text ++ ['\n']) os 0 []
        = none :=
    fun fd base os => full_buffer_then_newline_aborts _ hnl hlen hne fd base _ hfuel os 0 []
  have hprobe : open_concat_file (described_by (description_text [long_line] true)) (-1)
      "/data/idx.txt".toList = none := by
    unfold open_concat_file open_stream
    rw [if_neg hneg, described_by_content, hdesc]
    simp only [habort]
  -- the second description
  obtain ⟨head, hshape, hnl2, hlen2, hne2, hparse1⟩ := long_line_with_blanks_spec
  have hdesc2 : description_text [long_line_with_blanks] true
      = long_line_with_blanks.text ++ ['\n'] := rfl
  have hget1 := fgets_full_buffer head ['1', ' ', '2', ' ', '\n'] hnl2 hlen2 hne2
  have hget2 : fgets (PATH_MAX + 1) ['1', ' ', '2', ' ', '\n']
      = some (['1', ' ', '2', ' ', '\n'], []) := by decide
  have hparse2 : parse_line ['1', ' ', '2', ' ', '\n'] = some (1, 2, []) := by decide
  have hsum : to_off_t (to_off_t (0 + 5) + 2) = 7 := by decide
  have hloop : ∀ (base : List Char) (os : OS),
      open_loop (-1) base (head ++ ['1', ' ', '2', ' ', '\n']).length
        (head ++ ['1', ' ', '2', ' ', '\n']) os 0 [] = some (os, 7, []) := by
    intro base os
    obtain ⟨n, hn⟩ : ∃ n, (head ++ ['1', ' ', '2', ' ', '\n']).length = n + 2 :=
      ⟨head.length + 3, by simp only [List.length_append, List.length_cons, List.length_nil]⟩
    rw [hn, open_loop_round (-1) base (n + 1) _ head _ (List.replicate 4090 't') os 0 0 5 []
        hget1 hparse1, if_neg hneg,
      open_loop_round (-1) base n _ _ [] [] os _ 1 2 [] hget2 hparse2, if_neg hneg,
      open_loop_eof, hsum]
  have hprobe2 : open_concat_file (described_by (description_text [long_line_with_blanks] true))
      (-1) "/data/idx.txt".toList
      = some (((described_by (description_text [long_line_with_blanks] true)).open
            "/data/idx.txt".toList).2.close
          ((described_by (description_text [long_line_with_blanks] true)).open
            "/data/idx.txt".toList).1, some ⟨[], -1, 7, 1⟩) := by
    unfold open_concat_file open_stream
    rw [if_neg hneg, described_by_content, hdesc2, hshape]
    simp only [hloop]
  refine ⟨by decide, ?_, ?_, hprobe, ?_, by decide, ?_, ?_⟩
  · rw [hlen]
    rfl
  · unfold open_concat_file open_stream
    rw [if_pos hpos, described_by_fd_path, hdesc]
    simp only [described_by_content, habort]
  · unfold get_concat_file_size
    rw [hprobe]
  · rw [hprobe2]
    rfl
  · unfold get_concat_file_size
    rw [hprobe2]
    rfl

end Concatfs
